import Mathlib

/-!
Verification of the normalize / percentile / summary pipeline of
`bamliquidator_internal/normalize_plot_and_summarize.py`.

Tables of the hierarchical file are embedded as Lean lists of rows, row
fields keep the source's column names, and Python's exact arithmetic
(`from __future__ import division` true division on ints/floats) is
embedded with `Rat`.  Faults that Python raises (ZeroDivisionError,
KeyError, IndexError, AssertionError) are embedded with `Except Fault`.
Plotting, column indexes and the HTML output are outside the model: they
never change any table row.
-/

namespace Bam

/-- The uncaught Python faults the script can raise. -/
inductive Fault where
  | divByZero
  | keyError
  | indexError
  | assertionError
deriving DecidableEq

/-- A row of the raw `bin_counts` table (columns used by the script). -/
structure RawRow where
  bin_number : Nat
  cell_type : String
  chromosome : String
  file_name : String
  start : Nat
  stop : Nat
  count : Rat
  normalized_count : Rat
deriving DecidableEq

/-- A row of the `normalized_counts` table (columns used by the script). -/
structure NCRow where
  bin_number : Nat
  cell_type : String
  chromosome : String
  file_name : String
  percentile : Rat
  count : Rat
deriving DecidableEq

/-- Python dict lookup on an association list (first match wins). -/
def alookup {β : Type} : List (String × β) → String → Option β
  | [], _ => none
  | (k, v) :: rest, key => if key = k then some v else alookup rest key

/-- The `row["stop"] - row["start"]` region size of `normalize`. -/
def region_size (r : RawRow) : Rat := (r.stop : Rat) - (r.start : Rat)

/-- The `factor = (1 / region_size) * (1 / (total_count / 10**6))` of `normalize`. -/
def factor (regSize total_count : Rat) : Rat :=
  (1 / regSize) * (1 / (total_count / 10 ^ 6))

/-- The row loop of `normalize`: the cache is the pair
`(file_name, total_count)` held in the Python locals, `none` before the
first row.  A zero divisor raises ZeroDivisionError, a missing dict key
raises KeyError, exactly as in Python int/float arithmetic. -/
def normalizeGo (file_to_count : List (String × Rat)) :
    Option (String × Rat) → List RawRow → Except Fault (List RawRow)
  | _, [] => .ok []
  | cache, r :: rs =>
    let looked : Except Fault (String × Rat) :=
      match cache with
      | some (fn, tc) =>
        if r.file_name = fn then .ok (fn, tc)
        else
          match alookup file_to_count r.file_name with
          | some tc2 => .ok (r.file_name, tc2)
          | none => .error .keyError
      | none =>
        match alookup file_to_count r.file_name with
        | some tc2 => .ok (r.file_name, tc2)
        | none => .error .keyError
    match looked with
    | .error e => .error e
    | .ok (fn, tc) =>
      if region_size r = 0 then .error .divByZero
      else if tc / 10 ^ 6 = 0 then .error .divByZero
      else
        match normalizeGo file_to_count (some (fn, tc)) rs with
        | .error e => .error e
        | .ok rest =>
          .ok ({ r with normalized_count := r.count * factor (region_size r) tc } :: rest)

/-- The function `normalize(region_counts, file_to_count)`. -/
def normalize (region_counts : List RawRow) (file_to_count : List (String × Rat)) :
    Except Fault (List RawRow) :=
  normalizeGo file_to_count none region_counts

/-- The Python local `total_count` always mirrors `file_to_count[file_name]`. -/
def cacheValid (file_to_count : List (String × Rat)) : Option (String × Rat) → Prop
  | none => True
  | some (fn, tc) => alookup file_to_count fn = some tc

lemma factor_spec (c rs t : Rat) : c * factor rs t = c / rs / (t / 10 ^ 6) := by
  simp only [factor, one_div, div_eq_mul_inv]
  ring

lemma region_size_eq_zero_iff (r : RawRow) : region_size r = 0 ↔ r.stop = r.start := by
  rw [region_size, sub_eq_zero]
  exact_mod_cast Nat.cast_inj

lemma total_div_eq_zero_iff (t : Rat) : t / 10 ^ 6 = 0 ↔ t = 0 := by
  rw [div_eq_zero_iff]
  norm_num

/-- One loop iteration of `normalize`, given that the row's file has a
total count in the dict and the cached locals are consistent. -/
lemma normalizeGo_cons (file_to_count : List (String × Rat)) (cache : Option (String × Rat))
    (hc : cacheValid file_to_count cache) (r : RawRow) (rs : List RawRow) (t : Rat)
    (ht : alookup file_to_count r.file_name = some t) :
    normalizeGo file_to_count cache (r :: rs) =
      if region_size r = 0 then .error .divByZero
      else if t / 10 ^ 6 = 0 then .error .divByZero
      else
        match normalizeGo file_to_count (some (r.file_name, t)) rs with
        | .error e => .error e
        | .ok rest =>
          .ok ({ r with normalized_count := r.count * factor (region_size r) t } :: rest) := by
  cases cache with
  | none =>
    simp only [normalizeGo, ht]
  | some p =>
    obtain ⟨fn, tc⟩ := p
    by_cases hfn : r.file_name = fn
    · have htc : t = tc := by
        have hv : alookup file_to_count fn = some tc := hc
        rw [← hfn, ht] at hv
        exact Option.some_injective _ hv
      subst htc
      simp only [normalizeGo]
      rw [if_pos hfn, hfn]
    · simp only [normalizeGo]
      rw [if_neg hfn, ht]

/-- What a successful `normalize` writes into one row. -/
def normRowSpec (file_to_count : List (String × Rat)) (r : RawRow) : RawRow :=
  { r with normalized_count :=
      r.count / region_size r / ((alookup file_to_count r.file_name).getD 0 / 10 ^ 6) }

lemma normalizeGo_ok (file_to_count : List (String × Rat)) (rows : List RawRow)
    (cache : Option (String × Rat)) (hc : cacheValid file_to_count cache)
    (h : ∀ r ∈ rows, alookup file_to_count r.file_name ≠ none ∧
          alookup file_to_count r.file_name ≠ some 0 ∧ r.stop ≠ r.start) :
    normalizeGo file_to_count cache rows = .ok (rows.map (normRowSpec file_to_count)) := by
  induction rows generalizing cache with
  | nil => rfl
  | cons r rs ih =>
    obtain ⟨hk, hz, hss⟩ := h r (List.mem_cons_self r rs)
    obtain ⟨t, ht⟩ := Option.ne_none_iff_exists'.mp hk
    have htz : t ≠ 0 := fun h0 => hz (h0 ▸ ht)
    have hreg : ¬ region_size r = 0 := fun h0 => hss ((region_size_eq_zero_iff r).mp h0)
    have htd : ¬ t / 10 ^ 6 = 0 := fun h0 => htz ((total_div_eq_zero_iff t).mp h0)
    have hrest : normalizeGo file_to_count (some (r.file_name, t)) rs =
        .ok (rs.map (normRowSpec file_to_count)) :=
      ih (some (r.file_name, t)) ht (fun x hx => h x (List.mem_cons_of_mem r hx))
    rw [normalizeGo_cons file_to_count cache hc r rs t ht, if_neg hreg, if_neg htd, hrest]
    have hrow : { r with normalized_count := r.count * factor (region_size r) t } =
        normRowSpec file_to_count r := by
      simp [normRowSpec, factor_spec, ht]
    rw [List.map_cons, hrow]

/-- C1: after a successful `normalize`, every row's `normalized_count` is
`count / (stop - start) / (total_count / 1e6)` for that row's file, and the
factor scales inversely in proportion when the region size or the total
count is scaled. -/
theorem C1_normalize_formula (rows : List RawRow) (file_to_count : List (String × Rat))
    (h : ∀ r ∈ rows, alookup file_to_count r.file_name ≠ none ∧
          alookup file_to_count r.file_name ≠ some 0 ∧ r.stop ≠ r.start) :
    (normalize rows file_to_count = .ok (rows.map (fun r =>
      { r with normalized_count :=
          r.count / region_size r / ((alookup file_to_count r.file_name).getD 0 / 10 ^ 6) }))) ∧
    (∀ c rs t k : Rat,
      c * factor (k * rs) t = (c * factor rs t) / k ∧
      c * factor rs (k * t) = (c * factor rs t) / k) := by
  constructor
  · exact normalizeGo_ok file_to_count rows none trivial h
  · intro c rs t k
    constructor
    · simp only [factor, one_div, mul_inv, div_eq_mul_inv]
      ring
    · simp only [factor, one_div, div_eq_mul_inv, mul_inv, mul_assoc]
      ring

/-- Concrete inputs used by the witnesses: one raw row with region size 4,
count 8, total count 2,000,000 (so total/1e6 = 2 and normalized count 1). -/
def w1rows : List RawRow :=
  [{ bin_number := 0, cell_type := "t", chromosome := "c", file_name := "f",
     start := 6, stop := 10, count := 8, normalized_count := 0 }]

def w1totals : List (String × Rat) := [("f", 2000000)]

/-- Witness for C1 at a concrete table. -/
theorem C1_normalize_formula_witness :
    (normalize w1rows w1totals = .ok (w1rows.map (fun r =>
      { r with normalized_count :=
          r.count / region_size r / ((alookup w1totals r.file_name).getD 0 / 10 ^ 6) }))) ∧
    (∀ c rs t k : Rat,
      c * factor (k * rs) t = (c * factor rs t) / k ∧
      c * factor rs (k * t) = (c * factor rs t) / k) :=
  C1_normalize_formula w1rows w1totals (by decide)

lemma normalizeGo_err (file_to_count : List (String × Rat)) (rows : List RawRow)
    (cache : Option (String × Rat)) (hc : cacheValid file_to_count cache)
    (hk : ∀ r ∈ rows, (alookup file_to_count r.file_name).isSome)
    (hbad : ∃ r ∈ rows, alookup file_to_count r.file_name = some 0 ∨ r.stop = r.start) :
    normalizeGo file_to_count cache rows = .error .divByZero := by
  induction rows generalizing cache with
  | nil => exact absurd hbad (by simp)
  | cons r rs ih =>
    obtain ⟨t, ht⟩ := Option.isSome_iff_exists.mp (hk r (List.mem_cons_self r rs))
    rw [normalizeGo_cons file_to_count cache hc r rs t ht]
    by_cases hss : r.stop = r.start
    · rw [if_pos ((region_size_eq_zero_iff r).mpr hss)]
    · rw [if_neg (fun h0 => hss ((region_size_eq_zero_iff r).mp h0))]
      by_cases htz : t = 0
      · rw [if_pos ((total_div_eq_zero_iff t).mpr htz)]
      · rw [if_neg (fun h0 => htz ((total_div_eq_zero_iff t).mp h0))]
        have hbadrs : ∃ x ∈ rs, alookup file_to_count x.file_name = some 0 ∨ x.stop = x.start := by
          rcases hbad with ⟨x, hx, hbx⟩
          rcases List.mem_cons.mp hx with rfl | hx'
          · rcases hbx with hz | hs
            · exact absurd (Option.some_injective _ (ht ▸ hz : some t = some 0)) htz
            · exact absurd hs hss
          · exact ⟨x, hx', hbx⟩
        have hrest : normalizeGo file_to_count (some (r.file_name, t)) rs = .error .divByZero :=
          ih (some (r.file_name, t)) ht (fun x hx => hk x (List.mem_cons_of_mem r hx)) hbadrs
        rw [hrest]

/-- C6: provided every encountered `file_name` is in `file_to_count`,
`normalize` raises an uncaught division-by-zero fault (there is no guard,
retry or recovery: the `Except.error` propagates to the caller) exactly
when some row's file has total count 0 or has `stop == start`. -/
theorem C6_normalize_div_by_zero (rows : List RawRow) (file_to_count : List (String × Rat))
    (hk : ∀ r ∈ rows, (alookup file_to_count r.file_name).isSome) :
    normalize rows file_to_count = .error .divByZero ↔
      ∃ r ∈ rows, alookup file_to_count r.file_name = some 0 ∨ r.stop = r.start := by
  constructor
  · intro herr
    by_contra hno
    push_neg at hno
    have hgood : ∀ r ∈ rows, alookup file_to_count r.file_name ≠ none ∧
        alookup file_to_count r.file_name ≠ some 0 ∧ r.stop ≠ r.start := by
      intro r hr
      obtain ⟨hz, hs⟩ := hno r hr
      refine ⟨?_, hz, hs⟩
      intro h0
      have := hk r hr
      rw [h0] at this
      exact absurd this (by simp)
    rw [normalize, normalizeGo_ok file_to_count rows none trivial hgood] at herr
    exact absurd herr (by simp)
  · intro hbad
    exact normalizeGo_err file_to_count rows none trivial hk hbad

/-- Concrete inputs for the C6 witness: a row with `stop == start`. -/
def w6rows : List RawRow :=
  [{ bin_number := 0, cell_type := "t", chromosome := "c", file_name := "f",
     start := 3, stop := 3, count := 1, normalized_count := 0 }]

def w6totals : List (String × Rat) := [("f", 5)]

/-- Witness for C6 at a concrete table. -/
theorem C6_normalize_div_by_zero_witness :
    normalize w6rows w6totals = .error .divByZero ↔
      ∃ r ∈ w6rows, alookup w6totals r.file_name = some 0 ∨ r.stop = r.start :=
  C6_normalize_div_by_zero w6rows w6totals (by decide)

end Bam

namespace Bam

/-! ## populate_percentiles -/

/-- scipy.stats.rankdata average-method rank of `x` within `l`
(modelled from scipy's documented behaviour: tied values receive the
average of the ranks they span). -/
def rankAvg (l : List Rat) (x : Rat) : Rat :=
  (l.countP (fun y => decide (y < x)) : Rat) +
    ((l.countP (fun y => decide (y = x)) : Rat) + 1) / 2

/-- The call `stats.rankdata(normalized_count_list)`. -/
def rankdata (l : List Rat) : List Rat := l.map (rankAvg l)

/-- The array `(stats.rankdata(l) - 1) / (len(l) - 1) * 100`, elementwise. -/
def percentilesOf (l : List Rat) : List Rat :=
  (rankdata l).map (fun rk => (rk - 1) / ((l.length : Rat) - 1) * 100)

/-- The percentile value `percentilesOf` assigns to one value of `l`. -/
def pctAt (l : List Rat) (x : Rat) : Rat :=
  (rankAvg l x - 1) / ((l.length : Rat) - 1) * 100

lemma percentilesOf_eq_map (l : List Rat) : percentilesOf l = l.map (pctAt l) := by
  simp only [percentilesOf, rankdata, List.map_map]
  rfl

lemma percentilesOf_length (l : List Rat) : (percentilesOf l).length = l.length := by
  simp [percentilesOf, rankdata]

/-- The `where` condition `(cell_type == ct) & (file_name == fn)` on the
normalized_counts table. -/
def ncCond (cell_type file_name : String) (r : NCRow) : Bool :=
  decide (r.cell_type = cell_type ∧ r.file_name = file_name)

/-- The same condition on the counts table scan. -/
def rawCond (cell_type file_name : String) (r : RawRow) : Bool :=
  decide (r.cell_type = cell_type ∧ r.file_name = file_name)

/-- The `normalized_count_list` gathered by the first loop of
`populate_percentiles`. -/
def normalized_count_list (counts : List RawRow) (cell_type file_name : String) : List Rat :=
  (counts.filter (rawCond cell_type file_name)).map (·.normalized_count)

/-- The write-back loop of `populate_percentiles`: `i` enumerates matching
rows; `bin_numbers[i]` out of range raises IndexError, the `assert`
raises AssertionError on a bin mismatch. -/
def ppGo (cond : NCRow → Bool) (bin_numbers : List Nat) (percentiles : List Rat) :
    Nat → List NCRow → Except Fault (List NCRow)
  | _, [] => .ok []
  | i, r :: rs =>
    if cond r then
      match bin_numbers[i]? with
      | none => .error .indexError
      | some b =>
        if b = r.bin_number then
          match percentiles[i]? with
          | none => .error .indexError
          | some p =>
            match ppGo cond bin_numbers percentiles (i + 1) rs with
            | .error e => .error e
            | .ok rest => .ok ({ r with percentile := p } :: rest)
        else .error .assertionError
    else
      match ppGo cond bin_numbers percentiles i rs with
      | .error e => .error e
      | .ok rest => .ok (r :: rest)

/-- The function `populate_percentiles(normalized_counts, counts, cell_type, file_name)`. -/
def populate_percentiles (normalized_counts : List NCRow) (counts : List RawRow)
    (cell_type : String) (file_name : String := "*") : Except Fault (List NCRow) :=
  let matched := counts.filter (rawCond cell_type file_name)
  ppGo (ncCond cell_type file_name) (matched.map (·.bin_number))
    (percentilesOf (matched.map (·.normalized_count))) 0 normalized_counts

/-- Specification of the write-back: the j-th matching row receives the
j-th percentile, other rows are untouched. -/
def wbSpec (cond : NCRow → Bool) : List Rat → List NCRow → List NCRow
  | _, [] => []
  | ps, r :: rs =>
    if cond r then { r with percentile := ps.headD 0 } :: wbSpec cond ps.tail rs
    else r :: wbSpec cond ps rs

/-- A row with its percentile column blanked, to state that
`populate_percentiles` changes nothing else. -/
def erasePct (r : NCRow) : NCRow := { r with percentile := 0 }

lemma ppGo_ok (cond : NCRow → Bool) (bins : List Nat) (pcts : List Rat)
    (hlen : pcts.length = bins.length) :
    ∀ (nc : List NCRow) (i : Nat),
      bins.drop i = (nc.filter cond).map (·.bin_number) →
      ppGo cond bins pcts i nc = .ok (wbSpec cond (pcts.drop i) nc) := by
  intro nc
  induction nc with
  | nil => intro i _; rfl
  | cons r rs ih =>
    intro i hdrop
    by_cases hcr : cond r
    · rw [List.filter_cons_of_pos hcr, List.map_cons] at hdrop
      have hi : i < bins.length := by
        by_contra hle
        rw [List.drop_eq_nil_of_le (Nat.le_of_not_lt hle)] at hdrop
        exact List.cons_ne_nil _ _ hdrop.symm
      have hip : i < pcts.length := hlen ▸ hi
      have hbin : bins[i] = r.bin_number ∧ bins.drop (i + 1) = (rs.filter cond).map (·.bin_number) := by
        rw [List.drop_eq_getElem_cons hi] at hdrop
        exact ⟨List.head_eq_of_cons_eq hdrop, List.tail_eq_of_cons_eq hdrop⟩
      have hwb : pcts.drop i = pcts[i] :: pcts.drop (i + 1) := List.drop_eq_getElem_cons hip
      simp only [ppGo, hcr, if_true, List.getElem?_eq_getElem hi, hbin.1, if_pos rfl,
        List.getElem?_eq_getElem hip, ih (i + 1) hbin.2, wbSpec, hwb, List.headD_cons,
        List.tail_cons]
    · rw [List.filter_cons_of_neg hcr] at hdrop
      simp only [ppGo, hcr, if_false, ih i hdrop, wbSpec, Bool.false_eq_true]

lemma populate_percentiles_ok (nc : List NCRow) (counts : List RawRow) (ct fn : String)
    (halign : (counts.filter (rawCond ct fn)).map (·.bin_number) =
      (nc.filter (ncCond ct fn)).map (·.bin_number)) :
    populate_percentiles nc counts ct fn =
      .ok (wbSpec (ncCond ct fn) (percentilesOf (normalized_count_list counts ct fn)) nc) := by
  have h := ppGo_ok (ncCond ct fn) ((counts.filter (rawCond ct fn)).map (·.bin_number))
    (percentilesOf ((counts.filter (rawCond ct fn)).map (·.normalized_count)))
    (by simp [percentilesOf_length]) nc 0 (by simpa using halign)
  simpa [populate_percentiles, normalized_count_list] using h

lemma wbSpec_erase (cond : NCRow → Bool) (ps : List Rat) (nc : List NCRow) :
    (wbSpec cond ps nc).map erasePct = nc.map erasePct := by
  induction nc generalizing ps with
  | nil => rfl
  | cons r rs ih =>
    by_cases hcr : cond r
    · simp only [wbSpec, hcr, if_true, List.map_cons, ih]
      rfl
    · simp only [wbSpec, hcr, if_false, List.map_cons, ih, Bool.false_eq_true]

lemma ncCond_set_pct (ct fn : String) (r : NCRow) (p : Rat) :
    ncCond ct fn { r with percentile := p } = ncCond ct fn r := rfl

lemma wbSpec_filter_map (ct fn : String) (ps : List Rat) (nc : List NCRow)
    (hlen : (nc.filter (ncCond ct fn)).length ≤ ps.length) :
    ((wbSpec (ncCond ct fn) ps nc).filter (ncCond ct fn)).map (·.percentile) =
      ps.take (nc.filter (ncCond ct fn)).length := by
  induction nc generalizing ps with
  | nil => simp [wbSpec]
  | cons r rs ih =>
    by_cases hcr : ncCond ct fn r
    · rw [List.filter_cons_of_pos hcr] at hlen ⊢
      cases ps with
      | nil => simp at hlen
      | cons p ps' =>
        rw [List.length_cons] at hlen ⊢
        simp only [wbSpec, hcr, if_true, List.headD_cons, List.tail_cons]
        rw [List.filter_cons_of_pos (by rw [ncCond_set_pct]; exact hcr), List.map_cons,
          List.take_succ_cons, ih ps' (Nat.le_of_succ_le_succ hlen)]
    · rw [List.filter_cons_of_neg hcr] at hlen ⊢
      simp only [wbSpec, hcr, if_false, Bool.false_eq_true]
      rw [List.filter_cons_of_neg hcr, ih ps hlen]

/-- C7: if the scan of `normalized_counts` yields the matching rows with
the same bin_number sequence as the scan of `counts`, then the `assert`
never fires (no fault is raised), the i-th percentile goes to the i-th
matching row, and nothing but percentile columns changes. -/
theorem C7_assert_alignment (nc : List NCRow) (counts : List RawRow) (ct fn : String)
    (halign : (counts.filter (rawCond ct fn)).map (·.bin_number) =
      (nc.filter (ncCond ct fn)).map (·.bin_number)) :
    ∃ out, populate_percentiles nc counts ct fn = .ok out ∧
      (out.filter (ncCond ct fn)).map (·.percentile) =
        percentilesOf (normalized_count_list counts ct fn) ∧
      out.map erasePct = nc.map erasePct := by
  refine ⟨_, populate_percentiles_ok nc counts ct fn halign, ?_, wbSpec_erase _ _ _⟩
  have hlen : (nc.filter (ncCond ct fn)).length =
      (percentilesOf (normalized_count_list counts ct fn)).length := by
    rw [percentilesOf_length, normalized_count_list, List.length_map,
      ← List.length_map (counts.filter (rawCond ct fn)) (·.bin_number), halign, List.length_map]
  rw [wbSpec_filter_map ct fn _ nc (le_of_eq hlen), hlen, List.take_length]

end Bam

namespace Bam

/-! ## Rank and percentile facts used by C2 -/

lemma ce_one (l : List Rat) (x : Rat) (hnd : l.Nodup) (hx : x ∈ l) :
    l.countP (fun y => decide (y = x)) = 1 := by
  induction l with
  | nil => cases hx
  | cons a l ih =>
    rw [List.nodup_cons] at hnd
    rcases List.mem_cons.mp hx with rfl | hx'
    · rw [List.countP_cons_of_pos _ _ (by simp),
        List.countP_eq_zero.mpr (fun y hy => by
          simp only [decide_eq_true_eq]
          rintro rfl
          exact hnd.1 hy)]
    · have hax : ¬ (a = x) := fun h => hnd.1 (h ▸ hx')
      rw [List.countP_cons_of_neg _ _ (by simpa using hax)]
      exact ih hnd.2 hx'

lemma cl_add_ce_le (l : List Rat) (x : Rat) :
    l.countP (fun y => decide (y < x)) + l.countP (fun y => decide (y = x)) ≤ l.length := by
  induction l with
  | nil => simp
  | cons a l ih =>
    rw [List.countP_cons, List.countP_cons, List.length_cons]
    simp only [decide_eq_true_eq]
    split_ifs with h1 h2
    · exact absurd (h2 ▸ h1) (lt_irrefl x)
    · omega
    · omega
    · omega

lemma cl_lt_of_mem_lt (l : List Rat) (x y : Rat) (hx : x ∈ l) (hxy : x < y) :
    l.countP (fun z => decide (z < x)) < l.countP (fun z => decide (z < y)) := by
  induction l with
  | nil => cases hx
  | cons a l ih =>
    have hmono : l.countP (fun z => decide (z < x)) ≤ l.countP (fun z => decide (z < y)) := by
      apply List.countP_mono_left
      intro z _ hz
      simp only [decide_eq_true_eq] at hz ⊢
      exact lt_trans hz hxy
    rcases List.mem_cons.mp hx with rfl | hx'
    · rw [List.countP_cons_of_neg _ _ (by simp), List.countP_cons_of_pos _ _ (by simpa using hxy)]
      omega
    · have hstrict := ih hx'
      rw [List.countP_cons, List.countP_cons]
      simp only [decide_eq_true_eq]
      split_ifs with h1 h2
      · omega
      · exact absurd (lt_trans h1 hxy) h2
      · omega
      · omega

lemma cl_max (l : List Rat) (x : Rat) (hnd : l.Nodup) (hx : x ∈ l)
    (hmax : ∀ y ∈ l, y ≤ x) :
    l.countP (fun y => decide (y < x)) = l.length - 1 := by
  induction l with
  | nil => cases hx
  | cons a l ih =>
    rw [List.nodup_cons] at hnd
    rw [List.countP_cons, List.length_cons]
    simp only [decide_eq_true_eq]
    rcases List.mem_cons.mp hx with rfl | hx'
    · rw [if_neg (lt_irrefl x)]
      have hfull : l.countP (fun y => decide (y < x)) = l.length := by
        rw [List.countP_eq_length]
        intro y hy
        simp only [decide_eq_true_eq]
        exact lt_of_le_of_ne (hmax y (List.mem_cons_of_mem _ hy)) (fun he => hnd.1 (he ▸ hy))
      omega
    · have ha : a < x :=
        lt_of_le_of_ne (hmax a (List.mem_cons_self _ _))
          (fun he => hnd.1 (by rw [he]; exact hx'))
      rw [if_pos ha, ih hnd.2 hx' (fun y hy => hmax y (List.mem_cons_of_mem _ hy))]
      have hpos : 0 < l.length := List.length_pos.mpr (List.ne_nil_of_mem hx')
      omega

lemma rankAvg_nodup (l : List Rat) (x : Rat) (hnd : l.Nodup) (hx : x ∈ l) :
    rankAvg l x = (l.countP (fun y => decide (y < x)) : Rat) + 1 := by
  rw [rankAvg, ce_one l x hnd hx]
  norm_num

lemma pctAt_eq (l : List Rat) (x : Rat) (hnd : l.Nodup) (hx : x ∈ l) :
    pctAt l x = (l.countP (fun y => decide (y < x)) : Rat) / ((l.length : Rat) - 1) * 100 := by
  rw [pctAt, rankAvg_nodup l x hnd hx, add_sub_cancel_right]

/-- C2: with the table scans aligned, `populate_percentiles` writes each
group's percentiles as `(rank - 1) / (N - 1) * 100` with average ranks for
ties (`pctAt`/`rankAvg`); for N ≥ 2 pairwise-distinct values the written
percentiles lie in [0, 100], the minimum gets 0, the maximum gets 100, and
percentiles are strictly increasing in the value (rank order). -/
theorem C2_percentile_range (nc : List NCRow) (counts : List RawRow) (ct fn : String)
    (halign : (counts.filter (rawCond ct fn)).map (·.bin_number) =
      (nc.filter (ncCond ct fn)).map (·.bin_number))
    (hnd : (normalized_count_list counts ct fn).Nodup)
    (hN : 2 ≤ (normalized_count_list counts ct fn).length) :
    (∃ out, populate_percentiles nc counts ct fn = .ok out ∧
      (out.filter (ncCond ct fn)).map (·.percentile) =
        percentilesOf (normalized_count_list counts ct fn)) ∧
    percentilesOf (normalized_count_list counts ct fn) =
      (normalized_count_list counts ct fn).map (pctAt (normalized_count_list counts ct fn)) ∧
    (∀ p ∈ percentilesOf (normalized_count_list counts ct fn), 0 ≤ p ∧ p ≤ 100) ∧
    (∀ x ∈ normalized_count_list counts ct fn,
      (∀ y ∈ normalized_count_list counts ct fn, x ≤ y) →
        pctAt (normalized_count_list counts ct fn) x = 0) ∧
    (∀ x ∈ normalized_count_list counts ct fn,
      (∀ y ∈ normalized_count_list counts ct fn, y ≤ x) →
        pctAt (normalized_count_list counts ct fn) x = 100) ∧
    (∀ x ∈ normalized_count_list counts ct fn, ∀ y ∈ normalized_count_list counts ct fn,
      x < y → pctAt (normalized_count_list counts ct fn) x <
        pctAt (normalized_count_list counts ct fn) y) := by
  set L := normalized_count_list counts ct fn with hL
  have hD : (0 : Rat) < (L.length : Rat) - 1 := by
    have : (2 : Rat) ≤ (L.length : Rat) := by exact_mod_cast hN
    linarith
  have hone : (1 : Nat) ≤ L.length := le_trans (by norm_num) hN
  refine ⟨?_, percentilesOf_eq_map L, ?_, ?_, ?_, ?_⟩
  · obtain ⟨out, hout, hmap, _⟩ := C7_assert_alignment nc counts ct fn halign
    exact ⟨out, hout, hmap⟩
  · intro p hp
    rw [percentilesOf_eq_map] at hp
    obtain ⟨x, hx, rfl⟩ := List.mem_map.mp hp
    have hcl : L.countP (fun y => decide (y < x)) + 1 ≤ L.length := by
      have := cl_add_ce_le L x
      rw [ce_one L x hnd hx] at this
      exact this
    rw [pctAt_eq L x hnd hx]
    constructor
    · apply mul_nonneg (div_nonneg (by positivity) (le_of_lt hD)) (by norm_num)
    · have hcast : (L.countP (fun y => decide (y < x)) : Rat) ≤ (L.length : Rat) - 1 := by
        have : ((L.countP (fun y => decide (y < x)) : Nat) : Rat) + 1 ≤ (L.length : Rat) := by
          exact_mod_cast hcl
        linarith
      calc (L.countP (fun y => decide (y < x)) : Rat) / ((L.length : Rat) - 1) * 100
          ≤ 1 * 100 := by
            apply mul_le_mul_of_nonneg_right _ (by norm_num)
            exact (div_le_one hD).mpr hcast
        _ = 100 := by norm_num
  · intro x hx hmin
    have hcl : L.countP (fun y => decide (y < x)) = 0 :=
      List.countP_eq_zero.mpr (fun y hy => by
        simp only [decide_eq_true_eq]
        exact not_lt.mpr (hmin y hy))
    rw [pctAt_eq L x hnd hx, hcl]
    norm_num
  · intro x hx hmax
    rw [pctAt_eq L x hnd hx, cl_max L x hnd hx hmax, Nat.cast_sub hone, Nat.cast_one,
      div_self (ne_of_gt hD)]
    norm_num
  · intro x hx y hy hxy
    rw [pctAt_eq L x hnd hx, pctAt_eq L y hnd hy]
    apply mul_lt_mul_of_pos_right _ (by norm_num : (0 : Rat) < 100)
    rw [div_eq_mul_inv, div_eq_mul_inv]
    apply mul_lt_mul_of_pos_right _ (inv_pos.mpr hD)
    exact_mod_cast cl_lt_of_mem_lt L x y hx hxy

/-- Concrete inputs for the C2/C7 witnesses: three matching raw rows with
distinct normalized counts 3, 1, 2 in bins 0, 1, 2 (plus an unrelated raw
row), and a normalized_counts table with the matching rows in the same bin
order plus an unrelated row. -/
def w2counts : List RawRow :=
  [{ bin_number := 0, cell_type := "t", chromosome := "c", file_name := "f",
     start := 0, stop := 10, count := 0, normalized_count := 3 },
   { bin_number := 1, cell_type := "t", chromosome := "c", file_name := "f",
     start := 0, stop := 10, count := 0, normalized_count := 1 },
   { bin_number := 2, cell_type := "t", chromosome := "c", file_name := "f",
     start := 0, stop := 10, count := 0, normalized_count := 2 },
   { bin_number := 0, cell_type := "t", chromosome := "c", file_name := "g",
     start := 0, stop := 10, count := 0, normalized_count := 9 }]

def w2nc : List NCRow :=
  [{ bin_number := 0, cell_type := "t", chromosome := "c", file_name := "f",
     percentile := 0, count := 0 },
   { bin_number := 5, cell_type := "u", chromosome := "c", file_name := "*",
     percentile := 0, count := 0 },
   { bin_number := 1, cell_type := "t", chromosome := "c", file_name := "f",
     percentile := 0, count := 0 },
   { bin_number := 2, cell_type := "t", chromosome := "c", file_name := "f",
     percentile := 0, count := 0 }]

/-- Witness for C2 at the concrete tables. -/
theorem C2_percentile_range_witness :
    (∃ out, populate_percentiles w2nc w2counts "t" "f" = .ok out ∧
      (out.filter (ncCond "t" "f")).map (·.percentile) =
        percentilesOf (normalized_count_list w2counts "t" "f")) ∧
    percentilesOf (normalized_count_list w2counts "t" "f") =
      (normalized_count_list w2counts "t" "f").map (pctAt (normalized_count_list w2counts "t" "f")) ∧
    (∀ p ∈ percentilesOf (normalized_count_list w2counts "t" "f"), 0 ≤ p ∧ p ≤ 100) ∧
    (∀ x ∈ normalized_count_list w2counts "t" "f",
      (∀ y ∈ normalized_count_list w2counts "t" "f", x ≤ y) →
        pctAt (normalized_count_list w2counts "t" "f") x = 0) ∧
    (∀ x ∈ normalized_count_list w2counts "t" "f",
      (∀ y ∈ normalized_count_list w2counts "t" "f", y ≤ x) →
        pctAt (normalized_count_list w2counts "t" "f") x = 100) ∧
    (∀ x ∈ normalized_count_list w2counts "t" "f", ∀ y ∈ normalized_count_list w2counts "t" "f",
      x < y → pctAt (normalized_count_list w2counts "t" "f") x <
        pctAt (normalized_count_list w2counts "t" "f") y) :=
  C2_percentile_range w2nc w2counts "t" "f" (by decide) (by decide) (by decide)

/-- Witness for C7 at the concrete tables. -/
theorem C7_assert_alignment_witness :
    ∃ out, populate_percentiles w2nc w2counts "t" "f" = .ok out ∧
      (out.filter (ncCond "t" "f")).map (·.percentile) =
        percentilesOf (normalized_count_list w2counts "t" "f") ∧
      out.map erasePct = w2nc.map erasePct :=
  C7_assert_alignment w2nc w2counts "t" "f" (by decide)

end Bam

namespace Bam

/-! ## populate_summary -/

/-- A row of the `summary` table. -/
structure SummaryRow where
  bin_number : Nat
  chromosome : String
  avg_cell_type_percentile : Rat
  cell_types_gte_95th_percentile : Nat
  cell_types_lt_95th_percentile : Nat
  lines_gte_95th_percentile : Nat
  lines_lt_95th_percentile : Nat
  cell_types_gte_5th_percentile : Nat
  cell_types_lt_5th_percentile : Nat
  lines_gte_5th_percentile : Nat
  lines_lt_5th_percentile : Nat
deriving DecidableEq

/-- The defaultdicts, sets and max_bin accumulated by the row loop of
`populate_summary`; the `by_bin` dicts are embedded as functions. -/
structure SAcc where
  summed : Nat → Rat
  ctGteH : Nat → Nat
  ctLtH : Nat → Nat
  lnGteH : Nat → Nat
  lnLtH : Nat → Nat
  ctGteL : Nat → Nat
  ctLtL : Nat → Nat
  lnGteL : Nat → Nat
  lnLtL : Nat → Nat
  lines : List String
  cellTypes : List String
  maxBin : Nat

/-- The update `dict[b] += 1`. -/
def bump (f : Nat → Nat) (b : Nat) : Nat → Nat :=
  fun b2 => if b2 = b then f b2 + 1 else f b2

/-- Python `set.add`, embedded as a duplicate-free list. -/
def insertSet (s : String) (l : List String) : List String :=
  if s ∈ l then l else s :: l

/-- One iteration of the row loop of `populate_summary`
(`high = 95`, `low = 5`). -/
def summaryStep (a : SAcc) (r : NCRow) : SAcc :=
  let b := r.bin_number
  let a2 := { a with maxBin := max a.maxBin b }
  if r.file_name = "*" then
    { a2 with
      cellTypes := insertSet r.cell_type a2.cellTypes
      summed := fun b2 => if b2 = b then a2.summed b2 + r.percentile else a2.summed b2
      ctGteH := if 95 ≤ r.percentile then bump a2.ctGteH b else a2.ctGteH
      ctLtH := if 95 ≤ r.percentile then a2.ctLtH else bump a2.ctLtH b
      ctGteL := if 5 ≤ r.percentile then bump a2.ctGteL b else a2.ctGteL
      ctLtL := if 5 ≤ r.percentile then a2.ctLtL else bump a2.ctLtL b }
  else
    { a2 with
      lines := insertSet r.file_name a2.lines
      lnGteH := if 95 ≤ r.percentile then bump a2.lnGteH b else a2.lnGteH
      lnLtH := if 95 ≤ r.percentile then a2.lnLtH else bump a2.lnLtH b
      lnGteL := if 5 ≤ r.percentile then bump a2.lnGteL b else a2.lnGteL
      lnLtL := if 5 ≤ r.percentile then a2.lnLtL else bump a2.lnLtL b }

def summaryFold : SAcc → List NCRow → SAcc
  | a, [] => a
  | a, r :: rs => summaryFold (summaryStep a r) rs

def initSAcc : SAcc where
  summed := fun _ => 0
  ctGteH := fun _ => 0
  ctLtH := fun _ => 0
  lnGteH := fun _ => 0
  lnLtH := fun _ => 0
  ctGteL := fun _ => 0
  ctLtL := fun _ => 0
  lnGteL := fun _ => 0
  lnLtL := fun _ => 0
  lines := []
  cellTypes := []
  maxBin := 0

/-- The `where` condition `chromosome == chrom`. -/
def chromCond (chrom : String) (r : NCRow) : Bool := decide (r.chromosome = chrom)

/-- The summary row appended for one bin. -/
def mkSummaryRow (chrom : String) (a : SAcc) (b : Nat) : SummaryRow where
  bin_number := b
  chromosome := chrom
  avg_cell_type_percentile := a.summed b / (a.cellTypes.length : Rat)
  cell_types_gte_95th_percentile := a.ctGteH b
  cell_types_lt_95th_percentile := a.ctLtH b
  lines_gte_95th_percentile := a.lnGteH b
  lines_lt_95th_percentile := a.lnLtH b
  cell_types_gte_5th_percentile := a.ctGteL b
  cell_types_lt_5th_percentile := a.ctLtL b
  lines_gte_5th_percentile := a.lnGteL b
  lines_lt_5th_percentile := a.lnLtL b

/-- The function `populate_summary(summary, normalized_counts, chromosome)`, returning
the rows appended for this chromosome.  With no aggregate (`"*"`) row for
the chromosome, `len(cell_types)` is 0 and the division in the first
appended row raises ZeroDivisionError. -/
def populate_summary (normalized_counts : List NCRow) (chromosome : String) :
    Except Fault (List SummaryRow) :=
  let a := summaryFold initSAcc (normalized_counts.filter (chromCond chromosome))
  if a.cellTypes.length = 0 then .error .divByZero
  else .ok ((List.range (a.maxBin + 1)).map (mkSummaryRow chromosome a))

/-- The `max_bin` value over the rows of one chromosome. -/
def maxBinOf (normalized_counts : List NCRow) (chromosome : String) : Nat :=
  (normalized_counts.filter (chromCond chromosome)).foldl (fun m r => max m r.bin_number) 0

lemma step_counts (a : SAcc) (r : NCRow) (b : Nat) :
    ((summaryStep a r).lnGteH b + (summaryStep a r).lnLtH b =
      a.lnGteH b + a.lnLtH b + (if ¬ r.file_name = "*" ∧ b = r.bin_number then 1 else 0)) ∧
    ((summaryStep a r).ctGteH b + (summaryStep a r).ctLtH b =
      a.ctGteH b + a.ctLtH b + (if r.file_name = "*" ∧ b = r.bin_number then 1 else 0)) ∧
    ((summaryStep a r).lnGteL b + (summaryStep a r).lnLtL b =
      a.lnGteL b + a.lnLtL b + (if ¬ r.file_name = "*" ∧ b = r.bin_number then 1 else 0)) ∧
    ((summaryStep a r).ctGteL b + (summaryStep a r).ctLtL b =
      a.ctGteL b + a.ctLtL b + (if r.file_name = "*" ∧ b = r.bin_number then 1 else 0)) := by
  by_cases hf : r.file_name = "*" <;>
    by_cases h95 : (95 : Rat) ≤ r.percentile <;>
      by_cases h5 : (5 : Rat) ≤ r.percentile <;>
        by_cases hb : b = r.bin_number <;>
          simp [summaryStep, hf, h95, h5, bump, hb] <;> omega

lemma fold_counts (l : List NCRow) (a : SAcc) (b : Nat) :
    ((summaryFold a l).lnGteH b + (summaryFold a l).lnLtH b =
      a.lnGteH b + a.lnLtH b +
        l.countP (fun r => decide (¬ r.file_name = "*" ∧ b = r.bin_number))) ∧
    ((summaryFold a l).ctGteH b + (summaryFold a l).ctLtH b =
      a.ctGteH b + a.ctLtH b +
        l.countP (fun r => decide (r.file_name = "*" ∧ b = r.bin_number))) ∧
    ((summaryFold a l).lnGteL b + (summaryFold a l).lnLtL b =
      a.lnGteL b + a.lnLtL b +
        l.countP (fun r => decide (¬ r.file_name = "*" ∧ b = r.bin_number))) ∧
    ((summaryFold a l).ctGteL b + (summaryFold a l).ctLtL b =
      a.ctGteL b + a.ctLtL b +
        l.countP (fun r => decide (r.file_name = "*" ∧ b = r.bin_number))) := by
  induction l generalizing a with
  | nil => simp [summaryFold]
  | cons r rs ih =>
    obtain ⟨i1, i2, i3, i4⟩ := ih (summaryStep a r)
    obtain ⟨s1, s2, s3, s4⟩ := step_counts a r b
    rw [List.countP_cons, List.countP_cons]
    simp only [summaryFold, decide_eq_true_eq] at *
    refine ⟨by omega, by omega, by omega, by omega⟩

lemma step_maxBin (a : SAcc) (r : NCRow) :
    (summaryStep a r).maxBin = max a.maxBin r.bin_number := by
  by_cases hf : r.file_name = "*" <;> simp [summaryStep, hf]

lemma fold_maxBin (l : List NCRow) (a : SAcc) :
    (summaryFold a l).maxBin = l.foldl (fun m r => max m r.bin_number) a.maxBin := by
  induction l generalizing a with
  | nil => rfl
  | cons r rs ih =>
    rw [summaryFold, ih (summaryStep a r), List.foldl_cons, step_maxBin]

lemma le_foldl_max (l : List NCRow) (m : Nat) :
    m ≤ l.foldl (fun m r => max m r.bin_number) m := by
  induction l generalizing m with
  | nil => exact le_refl m
  | cons r rs ih =>
    exact le_trans (Nat.le_max_left m r.bin_number) (ih (max m r.bin_number))

lemma foldl_max_le (l : List NCRow) (m : Nat) :
    ∀ r ∈ l, r.bin_number ≤ l.foldl (fun m r => max m r.bin_number) m := by
  induction l generalizing m with
  | nil => intro r hr; cases hr
  | cons q rs ih =>
    intro r hr
    rcases List.mem_cons.mp hr with rfl | hr'
    · exact le_trans (Nat.le_max_right m r.bin_number) (le_foldl_max rs _)
    · exact ih (max m q.bin_number) r hr'

lemma foldl_max_attained (l : List NCRow) (m : Nat) :
    l.foldl (fun m r => max m r.bin_number) m = m ∨
      ∃ r ∈ l, r.bin_number = l.foldl (fun m r => max m r.bin_number) m := by
  induction l generalizing m with
  | nil => exact Or.inl rfl
  | cons q rs ih =>
    rw [List.foldl_cons]
    rcases ih (max m q.bin_number) with h | ⟨r, hr, hb⟩
    · rw [h]
      rcases Nat.le_total m q.bin_number with hle | hle
      · exact Or.inr ⟨q, List.mem_cons_self q rs, (Nat.max_eq_right hle).symm⟩
      · exact Or.inl (Nat.max_eq_left hle)
    · exact Or.inr ⟨r, List.mem_cons_of_mem q hr, hb⟩

lemma populate_summary_ok (nc : List NCRow) (chrom : String) (out : List SummaryRow)
    (h : populate_summary nc chrom = .ok out) :
    (summaryFold initSAcc (nc.filter (chromCond chrom))).cellTypes.length ≠ 0 ∧
    out = (List.range ((summaryFold initSAcc (nc.filter (chromCond chrom))).maxBin + 1)).map
      (mkSummaryRow chrom (summaryFold initSAcc (nc.filter (chromCond chrom)))) := by
  rw [populate_summary] at h
  split at h
  · exact absurd h (by simp)
  · refine ⟨by assumption, ?_⟩
    injection h with h2
    exact h2.symm

end Bam

namespace Bam

instance {ε α : Type} [DecidableEq ε] [DecidableEq α] : DecidableEq (Except ε α)
  | .error e, .error f =>
    if h : e = f then .isTrue (by rw [h]) else .isFalse (by intro hc; cases hc; exact h rfl)
  | .error _, .ok _ => .isFalse (by intro hc; cases hc)
  | .ok _, .error _ => .isFalse (by intro hc; cases hc)
  | .ok a, .ok b =>
    if h : a = b then .isTrue (by rw [h]) else .isFalse (by intro hc; cases hc; exact h rfl)

lemma fold_counts_init (l : List NCRow) (b : Nat) :
    ((summaryFold initSAcc l).lnGteH b + (summaryFold initSAcc l).lnLtH b =
      l.countP (fun r => decide (¬ r.file_name = "*" ∧ b = r.bin_number))) ∧
    ((summaryFold initSAcc l).ctGteH b + (summaryFold initSAcc l).ctLtH b =
      l.countP (fun r => decide (r.file_name = "*" ∧ b = r.bin_number))) ∧
    ((summaryFold initSAcc l).lnGteL b + (summaryFold initSAcc l).lnLtL b =
      l.countP (fun r => decide (¬ r.file_name = "*" ∧ b = r.bin_number))) ∧
    ((summaryFold initSAcc l).ctGteL b + (summaryFold initSAcc l).ctLtL b =
      l.countP (fun r => decide (r.file_name = "*" ∧ b = r.bin_number))) := by
  obtain ⟨f1, f2, f3, f4⟩ := fold_counts l initSAcc b
  rw [show initSAcc.lnGteH b = 0 from rfl, show initSAcc.lnLtH b = 0 from rfl] at f1
  rw [show initSAcc.ctGteH b = 0 from rfl, show initSAcc.ctLtH b = 0 from rfl] at f2
  rw [show initSAcc.lnGteL b = 0 from rfl, show initSAcc.lnLtL b = 0 from rfl] at f3
  rw [show initSAcc.ctGteL b = 0 from rfl, show initSAcc.ctLtL b = 0 from rfl] at f4
  simp only [Nat.zero_add] at f1 f2 f3 f4
  exact ⟨f1, f2, f3, f4⟩

lemma countP_perFile_eq (nc : List NCRow) (chrom : String) (b : Nat) :
    nc.countP (fun r =>
        decide (¬ r.file_name = "*" ∧ b = r.bin_number) && chromCond chrom r) =
      nc.countP (fun r =>
        decide (r.chromosome = chrom ∧ ¬ r.file_name = "*" ∧ b = r.bin_number)) := by
  apply List.countP_congr
  intro r _
  simp only [chromCond, Bool.and_eq_true, decide_eq_true_eq]
  tauto

lemma countP_agg_eq (nc : List NCRow) (chrom : String) (b : Nat) :
    nc.countP (fun r =>
        decide (r.file_name = "*" ∧ b = r.bin_number) && chromCond chrom r) =
      nc.countP (fun r =>
        decide (r.chromosome = chrom ∧ r.file_name = "*" ∧ b = r.bin_number)) := by
  apply List.countP_congr
  intro r _
  simp only [chromCond, Bool.and_eq_true, decide_eq_true_eq]
  tauto

/-- C3: in every summary row written by `populate_summary`, the pair of
`lines` counters adds up to the number of per-file rows of that
(chromosome, bin), the pair of `cell_types` counters adds up to the number
of aggregate (`"*"`) rows of that (chromosome, bin) — for the 95th and the
5th percentile counters alike. -/
theorem C3_summary_counter_partition (nc : List NCRow) (chrom : String)
    (out : List SummaryRow) (h : populate_summary nc chrom = .ok out) :
    ∀ row ∈ out,
      (row.lines_gte_95th_percentile + row.lines_lt_95th_percentile =
        nc.countP (fun r => decide (r.chromosome = chrom ∧ ¬ r.file_name = "*" ∧
          row.bin_number = r.bin_number))) ∧
      (row.cell_types_gte_95th_percentile + row.cell_types_lt_95th_percentile =
        nc.countP (fun r => decide (r.chromosome = chrom ∧ r.file_name = "*" ∧
          row.bin_number = r.bin_number))) ∧
      (row.lines_gte_5th_percentile + row.lines_lt_5th_percentile =
        nc.countP (fun r => decide (r.chromosome = chrom ∧ ¬ r.file_name = "*" ∧
          row.bin_number = r.bin_number))) ∧
      (row.cell_types_gte_5th_percentile + row.cell_types_lt_5th_percentile =
        nc.countP (fun r => decide (r.chromosome = chrom ∧ r.file_name = "*" ∧
          row.bin_number = r.bin_number))) := by
  obtain ⟨hct, hout⟩ := populate_summary_ok nc chrom out h
  subst hout
  intro row hrow
  obtain ⟨b, _, rfl⟩ := List.mem_map.mp hrow
  obtain ⟨f1, f2, f3, f4⟩ := fold_counts_init (nc.filter (chromCond chrom)) b
  rw [List.countP_filter] at f1 f2 f3 f4
  rw [countP_perFile_eq] at f1 f3
  rw [countP_agg_eq] at f2 f4
  simp only [mkSummaryRow]
  exact ⟨f1, f2, f3, f4⟩

/-- C10: `populate_summary` appends one row per bin 0..max_bin for the
chromosome, where max_bin bounds and is attained by the chromosome's rows,
and a bin with no matching normalized rows has all eight percentile
counters equal to zero. -/
theorem C10_summary_contiguous_bins (nc : List NCRow) (chrom : String)
    (out : List SummaryRow) (h : populate_summary nc chrom = .ok out) :
    out.length = maxBinOf nc chrom + 1 ∧
    (∀ i, ∀ hi : i < out.length, (out.get ⟨i, hi⟩).bin_number = i) ∧
    (∀ r ∈ nc.filter (chromCond chrom), r.bin_number ≤ maxBinOf nc chrom) ∧
    (∃ r ∈ nc.filter (chromCond chrom), r.bin_number = maxBinOf nc chrom) ∧
    (∀ row ∈ out,
      nc.countP (fun r => decide (r.chromosome = chrom ∧ row.bin_number = r.bin_number)) = 0 →
      row.cell_types_gte_95th_percentile = 0 ∧ row.cell_types_lt_95th_percentile = 0 ∧
      row.lines_gte_95th_percentile = 0 ∧ row.lines_lt_95th_percentile = 0 ∧
      row.cell_types_gte_5th_percentile = 0 ∧ row.cell_types_lt_5th_percentile = 0 ∧
      row.lines_gte_5th_percentile = 0 ∧ row.lines_lt_5th_percentile = 0) := by
  obtain ⟨hct, hout⟩ := populate_summary_ok nc chrom out h
  subst hout
  have hmb : (summaryFold initSAcc (nc.filter (chromCond chrom))).maxBin = maxBinOf nc chrom := by
    rw [fold_maxBin]
    rfl
  have hne : nc.filter (chromCond chrom) ≠ [] := by
    intro h0
    rw [h0] at hct
    simp [summaryFold, initSAcc] at hct
  refine ⟨?_, ?_, ?_, ?_, ?_⟩
  · rw [List.length_map, List.length_range, hmb]
  · intro i hi
    simp only [List.get_eq_getElem, List.getElem_map, List.getElem_range]
    rfl
  · intro r hr
    exact foldl_max_le _ 0 r hr
  · rcases foldl_max_attained (nc.filter (chromCond chrom)) 0 with h0 | ⟨r, hr, hb⟩
    · obtain ⟨r0, hr0⟩ := List.exists_mem_of_ne_nil _ hne
      refine ⟨r0, hr0, ?_⟩
      have hle : r0.bin_number ≤ maxBinOf nc chrom := foldl_max_le _ 0 r0 hr0
      have hm0 : maxBinOf nc chrom = 0 := h0
      omega
    · exact ⟨r, hr, hb⟩
  · intro row hrow hzero
    obtain ⟨b, _, rfl⟩ := List.mem_map.mp hrow
    simp only [mkSummaryRow] at hzero ⊢
    obtain ⟨f1, f2, f3, f4⟩ := fold_counts_init (nc.filter (chromCond chrom)) b
    rw [List.countP_filter] at f1 f2 f3 f4
    rw [countP_perFile_eq] at f1 f3
    rw [countP_agg_eq] at f2 f4
    have hle1 : nc.countP (fun r => decide (r.chromosome = chrom ∧ ¬ r.file_name = "*" ∧
        b = r.bin_number)) ≤
          nc.countP (fun r => decide (r.chromosome = chrom ∧ b = r.bin_number)) := by
      apply List.countP_mono_left
      intro r _ hr
      simp only [decide_eq_true_eq] at hr ⊢
      tauto
    have hle2 : nc.countP (fun r => decide (r.chromosome = chrom ∧ r.file_name = "*" ∧
        b = r.bin_number)) ≤
          nc.countP (fun r => decide (r.chromosome = chrom ∧ b = r.bin_number)) := by
      apply List.countP_mono_left
      intro r _ hr
      simp only [decide_eq_true_eq] at hr ⊢
      tauto
    omega

/-- Concrete table for the C3/C10 witnesses: chromosome c1 has one
aggregate row in bin 0, one aggregate row in bin 1, one per-file row in
bin 0; chromosome c2 has one per-file row. -/
def w3nc : List NCRow :=
  [{ bin_number := 0, cell_type := "t", chromosome := "c1", file_name := "f1",
     percentile := 99, count := 1 },
   { bin_number := 0, cell_type := "t", chromosome := "c1", file_name := "*",
     percentile := 50, count := 1 },
   { bin_number := 1, cell_type := "t", chromosome := "c1", file_name := "*",
     percentile := 3, count := 1 },
   { bin_number := 0, cell_type := "t", chromosome := "c2", file_name := "f1",
     percentile := 10, count := 1 }]

/-- The first summary row `populate_summary` writes for chromosome c1 of
`w3nc`. -/
def w3row : SummaryRow :=
  { bin_number := 0, chromosome := "c1", avg_cell_type_percentile := 50,
    cell_types_gte_95th_percentile := 0, cell_types_lt_95th_percentile := 1,
    lines_gte_95th_percentile := 1, lines_lt_95th_percentile := 0,
    cell_types_gte_5th_percentile := 1, cell_types_lt_5th_percentile := 0,
    lines_gte_5th_percentile := 1, lines_lt_5th_percentile := 0 }

/-- The two summary rows `populate_summary` writes for chromosome c1 of
`w3nc`. -/
def w3out : List SummaryRow :=
  [w3row,
   { bin_number := 1, chromosome := "c1", avg_cell_type_percentile := 3,
     cell_types_gte_95th_percentile := 0, cell_types_lt_95th_percentile := 1,
     lines_gte_95th_percentile := 0, lines_lt_95th_percentile := 0,
     cell_types_gte_5th_percentile := 0, cell_types_lt_5th_percentile := 1,
     lines_gte_5th_percentile := 0, lines_lt_5th_percentile := 0 }]

/-- Witness for C3 at the concrete table, instantiated at the first
summary row. -/
theorem C3_summary_counter_partition_witness :
    (w3row.lines_gte_95th_percentile + w3row.lines_lt_95th_percentile =
      w3nc.countP (fun r => decide (r.chromosome = "c1" ∧ ¬ r.file_name = "*" ∧
        w3row.bin_number = r.bin_number))) ∧
    (w3row.cell_types_gte_95th_percentile + w3row.cell_types_lt_95th_percentile =
      w3nc.countP (fun r => decide (r.chromosome = "c1" ∧ r.file_name = "*" ∧
        w3row.bin_number = r.bin_number))) ∧
    (w3row.lines_gte_5th_percentile + w3row.lines_lt_5th_percentile =
      w3nc.countP (fun r => decide (r.chromosome = "c1" ∧ ¬ r.file_name = "*" ∧
        w3row.bin_number = r.bin_number))) ∧
    (w3row.cell_types_gte_5th_percentile + w3row.cell_types_lt_5th_percentile =
      w3nc.countP (fun r => decide (r.chromosome = "c1" ∧ r.file_name = "*" ∧
        w3row.bin_number = r.bin_number))) :=
  C3_summary_counter_partition w3nc "c1" w3out (by
    simp +decide [populate_summary, w3nc, w3out, w3row, summaryFold, summaryStep, bump,
      insertSet, initSAcc, mkSummaryRow, chromCond, List.range_succ])
    w3row (by simp [w3out])

/-- Witness for C10 at the concrete table. -/
theorem C10_summary_contiguous_bins_witness :
    w3out.length = maxBinOf w3nc "c1" + 1 ∧
    (∀ i, ∀ hi : i < w3out.length, (w3out.get ⟨i, hi⟩).bin_number = i) ∧
    (∀ r ∈ w3nc.filter (chromCond "c1"), r.bin_number ≤ maxBinOf w3nc "c1") ∧
    (∃ r ∈ w3nc.filter (chromCond "c1"), r.bin_number = maxBinOf w3nc "c1") ∧
    (∀ row ∈ w3out,
      w3nc.countP (fun r => decide (r.chromosome = "c1" ∧ row.bin_number = r.bin_number)) = 0 →
      row.cell_types_gte_95th_percentile = 0 ∧ row.cell_types_lt_95th_percentile = 0 ∧
      row.lines_gte_95th_percentile = 0 ∧ row.lines_lt_95th_percentile = 0 ∧
      row.cell_types_gte_5th_percentile = 0 ∧ row.cell_types_lt_5th_percentile = 0 ∧
      row.lines_gte_5th_percentile = 0 ∧ row.lines_lt_5th_percentile = 0) :=
  C10_summary_contiguous_bins w3nc "c1" w3out (by
    simp +decide [populate_summary, w3nc, w3out, w3row, summaryFold, summaryStep, bump,
      insertSet, initSAcc, mkSummaryRow, chromCond, List.range_succ])

end Bam

namespace Bam

/-! ## populate_normalized_counts_for_cell_type -/

/-- The Python dict `chromosome_to_summed_counts`: insertion-ordered keys,
values are Python lists. -/
abbrev Dict : Type := List (String × List Rat)

/-- First-file row handling: `if not has_key(ch): d[ch] = []` followed by
`d[ch].append(v)`. -/
def dictAppend : Dict → String → Rat → Dict
  | [], ch, v => [(ch, [v])]
  | (k, l) :: rest, ch, v =>
    if k = ch then (k, l ++ [v]) :: rest else (k, l) :: dictAppend rest ch v

/-- Later-file row handling: `d[ch][b] += v`; a missing chromosome raises
KeyError, an out-of-range bin raises IndexError. -/
def dictBump : Dict → String → Nat → Rat → Except Fault Dict
  | [], _, _, _ => .error .keyError
  | (k, l) :: rest, ch, b, v =>
    if k = ch then
      match l[b]? with
      | some old => .ok ((k, l.set b (old + v)) :: rest)
      | none => .error .indexError
    else
      match dictBump rest ch b v with
      | .error e => .error e
      | .ok d2 => .ok ((k, l) :: d2)

/-- The lookup `d[ch][b]` in the final update loop of
`populate_normalized_counts_for_cell_type`. -/
def dictAt : Dict → String → Nat → Except Fault Rat
  | [], _, _ => .error .keyError
  | (k, l) :: rest, ch, b =>
    if k = ch then
      match l[b]? with
      | some v => .ok v
      | none => .error .indexError
    else dictAt rest ch b

/-- The `where` condition `(file_name == f) & (cell_type == ct)`. -/
def fileCond (file_name cell_type : String) (r : NCRow) : Bool :=
  decide (r.file_name = file_name ∧ r.cell_type = cell_type)

/-- The `where` condition `(file_name == '*') & (cell_type == ct)`. -/
def aggCond (cell_type : String) (r : NCRow) : Bool :=
  decide (r.file_name = "*" ∧ r.cell_type = cell_type)

/-- Row loop over the first file (`processed_a_single_file == False`). -/
def sumFirst : Dict → List NCRow → Dict
  | d, [] => d
  | d, r :: rs => sumFirst (dictAppend d r.chromosome r.count) rs

/-- Row loop over a later file (`processed_a_single_file == True`). -/
def sumLater : Dict → List NCRow → Except Fault Dict
  | d, [] => .ok d
  | d, r :: rs =>
    match dictBump d r.chromosome r.bin_number r.count with
    | .error e => .error e
    | .ok d2 => sumLater d2 rs

def buildDictGo (normalized_counts : List NCRow) (cell_type : String) :
    Dict → List String → Except Fault Dict
  | d, [] => .ok d
  | d, f :: fs =>
    match sumLater d (normalized_counts.filter (fileCond f cell_type)) with
    | .error e => .error e
    | .ok d2 => buildDictGo normalized_counts cell_type d2 fs

/-- The file loop of `populate_normalized_counts_for_cell_type` that fills
`chromosome_to_summed_counts`. -/
def buildDict (normalized_counts : List NCRow) (cell_type : String) :
    List String → Except Fault Dict
  | [] => .ok []
  | f :: fs =>
    buildDictGo normalized_counts cell_type
      (sumFirst [] (normalized_counts.filter (fileCond f cell_type))) fs

/-- The `"*"` rows appended when no prior aggregate rows are found
(count and percentile set to -1, one row per enumerate index). -/
def mkAggRows (cell_type : String) (d : Dict) : List NCRow :=
  d.flatMap (fun p => (List.range p.2.length).map (fun i =>
    { bin_number := i, cell_type := cell_type, chromosome := p.1, file_name := "*",
      percentile := -1, count := -1 }))

/-- The final loop: every `"*"` row of the cell type receives
`d[chromosome][bin_number] / len(file_names)`. -/
def updateAggGo (d : Dict) (n : Rat) (cell_type : String) :
    List NCRow → Except Fault (List NCRow)
  | [] => .ok []
  | r :: rs =>
    if aggCond cell_type r then
      match dictAt d r.chromosome r.bin_number with
      | .error e => .error e
      | .ok v =>
        match updateAggGo d n cell_type rs with
        | .error e => .error e
        | .ok rest => .ok ({ r with count := v / n } :: rest)
    else
      match updateAggGo d n cell_type rs with
      | .error e => .error e
      | .ok rest => .ok (r :: rest)

/-- The function `populate_normalized_counts_for_cell_type(normalized_counts, cell_type,
file_names)`. -/
def populate_normalized_counts_for_cell_type (normalized_counts : List NCRow)
    (cell_type : String) (file_names : List String) : Except Fault (List NCRow) :=
  match buildDict normalized_counts cell_type file_names with
  | .error e => .error e
  | .ok d =>
    let nc2 := if normalized_counts.any (aggCond cell_type)
      then normalized_counts
      else normalized_counts ++ mkAggRows cell_type d
    updateAggGo d (file_names.length : Rat) cell_type nc2

/-- One canonical per-file row. -/
def cRow (cell_type chrom file : String) (b : Nat) (c : Rat) : NCRow :=
  { bin_number := b, cell_type := cell_type, chromosome := chrom, file_name := file,
    percentile := 0, count := c }

/-- The rows of one file in canonical table order: chromosomes in order,
bins 0..bins(ch)-1 within each chromosome. -/
def canonRows (cell_type : String) (chroms : List String) (bins : String → Nat)
    (cnt : String → String → Nat → Rat) (file : String) : List NCRow :=
  chroms.flatMap (fun ch =>
    (List.range (bins ch)).map (fun b => cRow cell_type ch file b (cnt file ch b)))

/-- A normalized_counts table made of per-file rows in canonical order. -/
def canonTable (cell_type : String) (chroms : List String) (bins : String → Nat)
    (cnt : String → String → Nat → Rat) (files : List String) : List NCRow :=
  files.flatMap (canonRows cell_type chroms bins cnt)

/-- The dict holding per-bin accumulated value `g ch b` for every
chromosome with at least one bin. -/
def canonDict (chroms : List String) (bins : String → Nat) (g : String → Nat → Rat) : Dict :=
  chroms.filterMap (fun ch =>
    if 0 < bins ch then some (ch, (List.range (bins ch)).map (g ch)) else none)

def dkeys (d : Dict) : List String := d.map Prod.fst

end Bam

namespace Bam

lemma canonRows_cons (ct : String) (ch : String) (rest : List String) (bins : String → Nat)
    (cnt : String → String → Nat → Rat) (f : String) :
    canonRows ct (ch :: rest) bins cnt f =
      ((List.range (bins ch)).map (fun b => cRow ct ch f b (cnt f ch b))) ++
        canonRows ct rest bins cnt f := by
  simp [canonRows, List.flatMap_cons]

lemma canonDict_cons_pos (ch : String) (rest : List String) (bins : String → Nat)
    (g : String → Nat → Rat) (h : 0 < bins ch) :
    canonDict (ch :: rest) bins g =
      (ch, (List.range (bins ch)).map (g ch)) :: canonDict rest bins g := by
  simp [canonDict, List.filterMap_cons, h]

lemma canonDict_cons_zero (ch : String) (rest : List String) (bins : String → Nat)
    (g : String → Nat → Rat) (h : ¬ 0 < bins ch) :
    canonDict (ch :: rest) bins g = canonDict rest bins g := by
  simp [canonDict, List.filterMap_cons, h]

lemma canonDict_congr (chroms : List String) (bins : String → Nat) (g g2 : String → Nat → Rat)
    (h : ∀ ch ∈ chroms, ∀ b < bins ch, g ch b = g2 ch b) :
    canonDict chroms bins g = canonDict chroms bins g2 := by
  induction chroms with
  | nil => rfl
  | cons ch rest ih =>
    rcases Nat.eq_zero_or_pos (bins ch) with h0 | hpos
    · rw [canonDict_cons_zero ch rest bins g (by omega),
        canonDict_cons_zero ch rest bins g2 (by omega)]
      exact ih (fun c hc => h c (List.mem_cons_of_mem _ hc))
    · rw [canonDict_cons_pos ch rest bins g hpos, canonDict_cons_pos ch rest bins g2 hpos,
        ih (fun c hc => h c (List.mem_cons_of_mem _ hc))]
      have hmap : (List.range (bins ch)).map (g ch) = (List.range (bins ch)).map (g2 ch) :=
        List.map_congr_left (fun b hb =>
          h ch (List.mem_cons_self _ _) b (List.mem_range.mp hb))
      rw [hmap]

lemma dictAppend_notMem (d : Dict) (ch : String) (v : Rat) (h : ¬ ch ∈ dkeys d) :
    dictAppend d ch v = d ++ [(ch, [v])] := by
  induction d with
  | nil => rfl
  | cons p rest ih =>
    obtain ⟨k, l⟩ := p
    simp only [dkeys, List.map_cons, List.mem_cons, not_or] at h
    rw [dictAppend, if_neg (fun he => h.1 he.symm), ih h.2]
    rfl

lemma dictAppend_last (d : Dict) (ch : String) (l : List Rat) (v : Rat)
    (h : ¬ ch ∈ dkeys d) :
    dictAppend (d ++ [(ch, l)]) ch v = d ++ [(ch, l ++ [v])] := by
  induction d with
  | nil => simp [dictAppend]
  | cons p rest ih =>
    obtain ⟨k, kl⟩ := p
    simp only [dkeys, List.map_cons, List.mem_cons, not_or] at h
    rw [List.cons_append, dictAppend, if_neg (fun he => h.1 he.symm), ih h.2]
    rfl

lemma sumFirst_append (d : Dict) (xs ys : List NCRow) :
    sumFirst d (xs ++ ys) = sumFirst (sumFirst d xs) ys := by
  induction xs generalizing d with
  | nil => rfl
  | cons r rs ih => rw [List.cons_append, sumFirst, sumFirst, ih]

lemma sumFirst_seg (d : Dict) (ct ch f : String) (g : Nat → Rat) (n : Nat)
    (h : ¬ ch ∈ dkeys d) (hn : 0 < n) :
    sumFirst d ((List.range n).map (fun b => cRow ct ch f b (g b))) =
      d ++ [(ch, (List.range n).map g)] := by
  induction n with
  | zero => omega
  | succ m ih =>
    have hsing : ∀ d2 : Dict, sumFirst d2 [cRow ct ch f m (g m)] = dictAppend d2 ch (g m) :=
      fun d2 => rfl
    have hr : List.range (m + 1) = List.range m ++ [m] := List.range_succ m
    rcases Nat.eq_zero_or_pos m with hm0 | hm
    · subst hm0
      rw [hr]
      simp only [List.range_zero, List.nil_append, List.map_cons, List.map_nil]
      rw [hsing, dictAppend_notMem d ch (g 0) h]
    · rw [hr, List.map_append, sumFirst_append, List.map_cons, List.map_nil, ih hm, hsing,
        dictAppend_last d ch _ (g m) h, List.map_append, List.map_cons, List.map_nil]

lemma sumFirst_canon (ct f : String) (chroms : List String) (bins : String → Nat)
    (cnt : String → String → Nat → Rat) (d : Dict)
    (hnd : chroms.Nodup) (hdisj : ∀ ch ∈ chroms, ¬ ch ∈ dkeys d) :
    sumFirst d (canonRows ct chroms bins cnt f) = d ++ canonDict chroms bins (cnt f) := by
  induction chroms generalizing d with
  | nil => simp [canonRows, canonDict, sumFirst]
  | cons ch rest ih =>
    rw [List.nodup_cons] at hnd
    rw [canonRows_cons, sumFirst_append]
    rcases Nat.eq_zero_or_pos (bins ch) with h0 | hpos
    · rw [h0]
      simp only [List.range_zero, List.map_nil, sumFirst]
      rw [ih d hnd.2 (fun c hc => hdisj c (List.mem_cons_of_mem _ hc)),
        canonDict_cons_zero ch rest bins (cnt f) (by omega)]
    · rw [sumFirst_seg d ct ch f (cnt f ch) (bins ch)
        (hdisj ch (List.mem_cons_self _ _)) hpos]
      have hdisj2 : ∀ c ∈ rest, ¬ c ∈ dkeys (d ++ [(ch, (List.range (bins ch)).map (cnt f ch))]) := by
        intro c hc
        simp only [dkeys, List.map_append, List.map_cons, List.map_nil, List.mem_append,
          List.mem_cons, not_or]
        refine ⟨?_, ?_, ?_⟩
        · have := hdisj c (List.mem_cons_of_mem _ hc)
          simpa [dkeys] using this
        · intro he
          exact hnd.1 (he ▸ hc)
        · simp
      rw [ih _ hnd.2 hdisj2, canonDict_cons_pos ch rest bins (cnt f) hpos, List.append_assoc,
        List.singleton_append]

end Bam

namespace Bam

lemma set_map_range (n b : Nat) (g : Nat → Rat) (w : Rat) (hb : b < n) :
    ((List.range n).map g).set b w =
      (List.range n).map (fun i => if i = b then w else g i) := by
  apply List.ext_getElem
  · simp
  · intro i h1 h2
    simp only [List.getElem_set, List.getElem_map, List.getElem_range]
    rcases eq_or_ne i b with rfl | h
    · simp
    · simp [h, Ne.symm h]

lemma dictBump_canon (chroms : List String) (bins : String → Nat) (g : String → Nat → Rat)
    (ch : String) (b : Nat) (v : Rat) (hnd : chroms.Nodup) (hch : ch ∈ chroms)
    (hb : b < bins ch) :
    dictBump (canonDict chroms bins g) ch b v =
      .ok (canonDict chroms bins
        (fun c2 b2 => if c2 = ch ∧ b2 = b then g c2 b2 + v else g c2 b2)) := by
  induction chroms with
  | nil => cases hch
  | cons c0 rest ih =>
    rw [List.nodup_cons] at hnd
    rcases Nat.eq_zero_or_pos (bins c0) with h0 | hpos
    · have hm : ch ∈ rest := by
        rcases List.mem_cons.mp hch with rfl | hm
        · omega
        · exact hm
      rw [canonDict_cons_zero _ _ _ _ (by omega), canonDict_cons_zero _ _ _ _ (by omega)]
      exact ih hnd.2 hm
    · rw [canonDict_cons_pos _ _ _ _ hpos, canonDict_cons_pos _ _ _ _ hpos]
      by_cases hc0 : c0 = ch
      · subst hc0
        have hlen : b < ((List.range (bins c0)).map (g c0)).length := by simpa using hb
        have hget : ((List.range (bins c0)).map (g c0))[b]? = some (g c0 b) := by
          rw [List.getElem?_eq_getElem hlen]
          simp
        have hstep : dictBump ((c0, (List.range (bins c0)).map (g c0)) ::
            canonDict rest bins g) c0 b v =
            .ok ((c0, ((List.range (bins c0)).map (g c0)).set b (g c0 b + v)) ::
              canonDict rest bins g) := by
          simp [dictBump, hget]
        rw [hstep]
        refine congrArg Except.ok ?_
        have hhead : ((List.range (bins c0)).map (g c0)).set b (g c0 b + v) =
            (List.range (bins c0)).map
              (fun b2 => if c0 = c0 ∧ b2 = b then g c0 b2 + v else g c0 b2) := by
          rw [set_map_range _ _ _ _ hb]
          apply List.map_congr_left
          intro i _
          by_cases hib : i = b <;> simp [hib]
        have htail : canonDict rest bins g = canonDict rest bins
            (fun c2 b2 => if c2 = c0 ∧ b2 = b then g c2 b2 + v else g c2 b2) := by
          apply canonDict_congr
          intro c2 hc2 b2 _
          have hne : ¬ c2 = c0 := fun he => hnd.1 (he ▸ hc2)
          simp [hne]
        rw [hhead, htail]
      · have hm : ch ∈ rest := by
          rcases List.mem_cons.mp hch with rfl | hm
          · exact absurd rfl hc0
          · exact hm
        have hstep : dictBump ((c0, (List.range (bins c0)).map (g c0)) ::
            canonDict rest bins g) ch b v =
            match dictBump (canonDict rest bins g) ch b v with
            | .error e => .error e
            | .ok d2 => .ok ((c0, (List.range (bins c0)).map (g c0)) :: d2) := by
          simp [dictBump, hc0]
        rw [hstep, ih hnd.2 hm]
        refine congrArg Except.ok ?_
        have hhead : (List.range (bins c0)).map (g c0) =
            (List.range (bins c0)).map
              (fun b2 => if c0 = ch ∧ b2 = b then g c0 b2 + v else g c0 b2) := by
          apply List.map_congr_left
          intro i _
          simp [hc0]
        rw [hhead]

lemma dictAt_canon (chroms : List String) (bins : String → Nat) (g : String → Nat → Rat)
    (ch : String) (b : Nat) (hnd : chroms.Nodup) (hch : ch ∈ chroms) (hb : b < bins ch) :
    dictAt (canonDict chroms bins g) ch b = .ok (g ch b) := by
  induction chroms with
  | nil => cases hch
  | cons c0 rest ih =>
    rw [List.nodup_cons] at hnd
    rcases Nat.eq_zero_or_pos (bins c0) with h0 | hpos
    · have hm : ch ∈ rest := by
        rcases List.mem_cons.mp hch with rfl | hm
        · omega
        · exact hm
      rw [canonDict_cons_zero _ _ _ _ (by omega)]
      exact ih hnd.2 hm
    · rw [canonDict_cons_pos _ _ _ _ hpos]
      by_cases hc0 : c0 = ch
      · subst hc0
        have hlen : b < ((List.range (bins c0)).map (g c0)).length := by simpa using hb
        have hget : ((List.range (bins c0)).map (g c0))[b]? = some (g c0 b) := by
          rw [List.getElem?_eq_getElem hlen]
          simp
        simp [dictAt, hget]
      · have hm : ch ∈ rest := by
          rcases List.mem_cons.mp hch with rfl | hm
          · exact absurd rfl hc0
          · exact hm
        simp only [dictAt]
        rw [if_neg hc0]
        exact ih hnd.2 hm

/-- Sequencing of fallible steps, used to state how the loops decompose. -/
def echain {A B : Type} : Except Fault A → (A → Except Fault B) → Except Fault B
  | .error e, _ => .error e
  | .ok a, f => f a

@[simp] lemma echain_ok {A B : Type} (a : A) (f : A → Except Fault B) :
    echain (.ok a) f = f a := rfl

@[simp] lemma echain_err {A B : Type} (e : Fault) (f : A → Except Fault B) :
    echain (.error e) f = .error e := rfl

lemma sumLater_append (d : Dict) (xs ys : List NCRow) :
    sumLater d (xs ++ ys) = echain (sumLater d xs) (fun d2 => sumLater d2 ys) := by
  induction xs generalizing d with
  | nil => rfl
  | cons r rs ih =>
    rw [List.cons_append]
    simp only [sumLater]
    cases hdb : dictBump d r.chromosome r.bin_number r.count with
    | error e => rfl
    | ok d2 => exact ih d2

end Bam

namespace Bam

lemma sumLater_single (d : Dict) (r : NCRow) :
    sumLater d [r] = echain (dictBump d r.chromosome r.bin_number r.count) (fun d2 => .ok d2) := by
  simp only [sumLater]
  cases dictBump d r.chromosome r.bin_number r.count with
  | error e => rfl
  | ok d2 => rfl

lemma sumLater_seg (chroms : List String) (bins : String → Nat) (g : String → Nat → Rat)
    (ct ch f : String) (cnt : String → String → Nat → Rat) (m : Nat)
    (hnd : chroms.Nodup) (hch : ch ∈ chroms) (hm : m ≤ bins ch) :
    sumLater (canonDict chroms bins g)
      ((List.range m).map (fun b => cRow ct ch f b (cnt f ch b))) =
      .ok (canonDict chroms bins
        (fun c2 b2 => if c2 = ch ∧ b2 < m then g c2 b2 + cnt f c2 b2 else g c2 b2)) := by
  induction m generalizing g with
  | zero =>
    rw [List.range_zero, List.map_nil]
    refine congrArg Except.ok (canonDict_congr _ _ _ _ ?_)
    intro c2 hc2 b2 hb2
    simp
  | succ m ih =>
    rw [List.range_succ, List.map_append, sumLater_append, ih g (by omega), echain_ok,
      List.map_cons, List.map_nil, sumLater_single]
    have hrow1 : (cRow ct ch f m (cnt f ch m)).chromosome = ch := rfl
    have hrow2 : (cRow ct ch f m (cnt f ch m)).bin_number = m := rfl
    have hrow3 : (cRow ct ch f m (cnt f ch m)).count = cnt f ch m := rfl
    rw [hrow1, hrow2, hrow3,
      dictBump_canon chroms bins _ ch m (cnt f ch m) hnd hch (by omega), echain_ok]
    refine congrArg Except.ok (canonDict_congr _ _ _ _ ?_)
    intro c2 hc2 b2 hb2
    by_cases hc : c2 = ch
    · subst hc
      by_cases hbm : b2 = m
      · subst hbm
        simp [Nat.lt_irrefl, Nat.lt_succ_self]
      · have hiff : b2 < m + 1 ↔ b2 < m := by omega
        simp [hbm, hiff]
    · simp [hc]

lemma sumLater_canon (chroms : List String) (bins : String → Nat) (g : String → Nat → Rat)
    (ct f : String) (cnt : String → String → Nat → Rat) (cs : List String)
    (hnd : chroms.Nodup) (hcs : ∀ c ∈ cs, c ∈ chroms) (hcsnd : cs.Nodup) :
    sumLater (canonDict chroms bins g)
      (cs.flatMap (fun ch =>
        (List.range (bins ch)).map (fun b => cRow ct ch f b (cnt f ch b)))) =
      .ok (canonDict chroms bins
        (fun c2 b2 => if c2 ∈ cs then g c2 b2 + cnt f c2 b2 else g c2 b2)) := by
  induction cs generalizing g with
  | nil =>
    refine congrArg Except.ok (canonDict_congr _ _ _ _ ?_)
    intro c2 _ b2 _
    simp
  | cons ch cs2 ih =>
    rw [List.nodup_cons] at hcsnd
    rw [List.flatMap_cons, sumLater_append,
      sumLater_seg chroms bins g ct ch f cnt (bins ch) hnd (hcs ch (List.mem_cons_self _ _))
        (le_refl _), echain_ok,
      ih _ (fun c hc => hcs c (List.mem_cons_of_mem _ hc)) hcsnd.2]
    refine congrArg Except.ok (canonDict_congr _ _ _ _ ?_)
    intro c2 hc2 b2 hb2
    by_cases hc : c2 = ch
    · subst hc
      have hnotin : ¬ c2 ∈ cs2 := hcsnd.1
      simp [hnotin, hb2]
    · have hiff : c2 ∈ ch :: cs2 ↔ c2 ∈ cs2 := by
        simp [List.mem_cons, hc]
      by_cases hin : c2 ∈ cs2 <;> simp [hc, hin, hiff]

end Bam

namespace Bam

lemma mem_canonRows {r : NCRow} {ct : String} {chroms : List String} {bins : String → Nat}
    {cnt : String → String → Nat → Rat} {f : String}
    (h : r ∈ canonRows ct chroms bins cnt f) :
    ∃ ch ∈ chroms, ∃ b, b < bins ch ∧ r = cRow ct ch f b (cnt f ch b) := by
  simp only [canonRows, List.mem_flatMap, List.mem_map, List.mem_range] at h
  obtain ⟨ch, hch, b, hb, rfl⟩ := h
  exact ⟨ch, hch, b, hb, rfl⟩

lemma mem_canonTable {r : NCRow} {ct : String} {chroms : List String} {bins : String → Nat}
    {cnt : String → String → Nat → Rat} {files : List String}
    (h : r ∈ canonTable ct chroms bins cnt files) :
    ∃ f ∈ files, ∃ ch ∈ chroms, ∃ b, b < bins ch ∧ r = cRow ct ch f b (cnt f ch b) := by
  simp only [canonTable, List.mem_flatMap] at h
  obtain ⟨f, hf, hr⟩ := h
  obtain ⟨ch, hch, b, hb, rfl⟩ := mem_canonRows hr
  exact ⟨f, hf, ch, hch, b, hb, rfl⟩

lemma filter_canonRows_self (ct : String) (chroms : List String) (bins : String → Nat)
    (cnt : String → String → Nat → Rat) (f : String) :
    (canonRows ct chroms bins cnt f).filter (fileCond f ct) = canonRows ct chroms bins cnt f := by
  rw [List.filter_eq_self]
  intro r hr
  obtain ⟨ch, _, b, _, rfl⟩ := mem_canonRows hr
  simp [fileCond, cRow]

lemma filter_canonRows_other (ct : String) (chroms : List String) (bins : String → Nat)
    (cnt : String → String → Nat → Rat) (f f2 : String) (hne : ¬ f2 = f) :
    (canonRows ct chroms bins cnt f2).filter (fileCond f ct) = [] := by
  rw [List.filter_eq_nil_iff]
  intro r hr
  obtain ⟨ch, _, b, _, rfl⟩ := mem_canonRows hr
  simp [fileCond, cRow, hne]

lemma canonTable_cons (ct : String) (chroms : List String) (bins : String → Nat)
    (cnt : String → String → Nat → Rat) (f0 : String) (fs : List String) :
    canonTable ct chroms bins cnt (f0 :: fs) =
      canonRows ct chroms bins cnt f0 ++ canonTable ct chroms bins cnt fs := by
  simp [canonTable, List.flatMap_cons]

lemma filter_canonTable_not_mem (ct : String) (chroms : List String) (bins : String → Nat)
    (cnt : String → String → Nat → Rat) (files : List String) (f : String)
    (hf : ¬ f ∈ files) :
    (canonTable ct chroms bins cnt files).filter (fileCond f ct) = [] := by
  induction files with
  | nil => rfl
  | cons f0 fs ih =>
    rw [canonTable_cons, List.filter_append,
      filter_canonRows_other ct chroms bins cnt f f0
        (fun he => hf (he ▸ List.mem_cons_self f0 fs)),
      List.nil_append]
    exact ih (fun hm => hf (List.mem_cons_of_mem _ hm))

lemma filter_canonTable (ct : String) (chroms : List String) (bins : String → Nat)
    (cnt : String → String → Nat → Rat) (files : List String) (f : String)
    (hnd : files.Nodup) (hf : f ∈ files) :
    (canonTable ct chroms bins cnt files).filter (fileCond f ct) =
      canonRows ct chroms bins cnt f := by
  induction files with
  | nil => cases hf
  | cons f0 fs ih =>
    rw [List.nodup_cons] at hnd
    rw [canonTable_cons, List.filter_append]
    rcases List.mem_cons.mp hf with rfl | hm
    · rw [filter_canonRows_self, filter_canonTable_not_mem ct chroms bins cnt fs f hnd.1,
        List.append_nil]
    · rw [filter_canonRows_other ct chroms bins cnt f f0
        (fun he => hnd.1 (he ▸ hm)), List.nil_append]
      exact ih hnd.2 hm

lemma buildDictGo_append (nc : List NCRow) (ct : String) (d : Dict) (fs : List String) :
    ∀ f, buildDictGo nc ct d (f :: fs) =
      echain (sumLater d (nc.filter (fileCond f ct))) (fun d2 => buildDictGo nc ct d2 fs) := by
  intro f
  simp only [buildDictGo]
  cases sumLater d (nc.filter (fileCond f ct)) with
  | error e => rfl
  | ok d2 => rfl

lemma buildDictGo_canon (ct : String) (chroms files : List String) (bins : String → Nat)
    (cnt : String → String → Nat → Rat) (fs : List String) (g : String → Nat → Rat)
    (hcnd : chroms.Nodup) (hfnd : files.Nodup) (hfs : ∀ f2 ∈ fs, f2 ∈ files) :
    buildDictGo (canonTable ct chroms bins cnt files) ct (canonDict chroms bins g) fs =
      .ok (canonDict chroms bins
        (fun ch b => g ch b + ((fs.map (fun f2 => cnt f2 ch b)).sum))) := by
  induction fs generalizing g with
  | nil =>
    refine congrArg Except.ok (canonDict_congr _ _ _ _ ?_)
    intro c2 hc2 b2 hb2
    simp
  | cons f2 fs2 ih =>
    rw [buildDictGo_append, filter_canonTable ct chroms bins cnt files f2 hfnd
      (hfs f2 (List.mem_cons_self _ _))]
    rw [show canonRows ct chroms bins cnt f2 = chroms.flatMap (fun ch =>
      (List.range (bins ch)).map (fun b => cRow ct ch f2 b (cnt f2 ch b))) from rfl]
    rw [sumLater_canon chroms bins g ct f2 cnt chroms hcnd (fun c hc => hc) hcnd, echain_ok,
      ih _ (fun f3 hf3 => hfs f3 (List.mem_cons_of_mem _ hf3))]
    refine congrArg Except.ok (canonDict_congr _ _ _ _ ?_)
    intro c2 hc2 b2 hb2
    simp [hc2, add_assoc]

lemma buildDict_canon (ct : String) (chroms : List String) (bins : String → Nat)
    (cnt : String → String → Nat → Rat) (f0 : String) (fs : List String)
    (hcnd : chroms.Nodup) (hfnd : (f0 :: fs).Nodup) :
    buildDict (canonTable ct chroms bins cnt (f0 :: fs)) ct (f0 :: fs) =
      .ok (canonDict chroms bins
        (fun ch b => (((f0 :: fs).map (fun f2 => cnt f2 ch b)).sum))) := by
  rw [List.nodup_cons] at hfnd
  rw [buildDict, filter_canonTable ct chroms bins cnt (f0 :: fs) f0
      (List.nodup_cons.mpr hfnd) (List.mem_cons_self _ _),
    sumFirst_canon ct f0 chroms bins cnt [] hcnd (by simp [dkeys]), List.nil_append,
    buildDictGo_canon ct chroms (f0 :: fs) bins cnt fs (cnt f0)
      hcnd (List.nodup_cons.mpr hfnd) (fun f2 h2 => List.mem_cons_of_mem _ h2)]
  refine congrArg Except.ok (canonDict_congr _ _ _ _ ?_)
  intro c2 hc2 b2 hb2
  simp

end Bam

namespace Bam

/-- The aggregate row appended for (chromosome, bin) before being filled in. -/
def aggRow (ct ch : String) (b : Nat) (c : Rat) : NCRow :=
  { bin_number := b, cell_type := ct, chromosome := ch, file_name := "*",
    percentile := -1, count := c }

lemma mkAggRows_canon (ct : String) (chroms : List String) (bins : String → Nat)
    (g : String → Nat → Rat) :
    mkAggRows ct (canonDict chroms bins g) =
      chroms.flatMap (fun ch => (List.range (bins ch)).map (fun b => aggRow ct ch b (-1))) := by
  induction chroms with
  | nil => rfl
  | cons ch rest ih =>
    rw [List.flatMap_cons]
    rcases Nat.eq_zero_or_pos (bins ch) with h0 | hpos
    · rw [canonDict_cons_zero _ _ _ _ (by omega), ih, h0]
      simp
    · rw [canonDict_cons_pos _ _ _ _ hpos]
      simp only [mkAggRows, List.flatMap_cons, List.length_map, List.length_range]
      rw [show (canonDict rest bins g).flatMap (fun p => (List.range p.2.length).map (fun i =>
        ({ bin_number := i, cell_type := ct, chromosome := p.1, file_name := "*",
           percentile := -1, count := -1 } : NCRow))) = mkAggRows ct (canonDict rest bins g)
        from rfl, ih]
      rfl

lemma canonTable_no_agg (ct : String) (chroms : List String) (bins : String → Nat)
    (cnt : String → String → Nat → Rat) (files : List String) (hstar : ¬ "*" ∈ files) :
    (canonTable ct chroms bins cnt files).any (aggCond ct) = false := by
  rw [List.any_eq_false]
  intro r hr
  obtain ⟨f, hf, ch, _, b, _, rfl⟩ := mem_canonTable hr
  simp only [aggCond, cRow, decide_eq_true_eq, not_and]
  intro he _
  exact hstar (he ▸ hf)

lemma updateAggGo_map (d : Dict) (n : Rat) (ct : String) (l : List NCRow) (h : NCRow → NCRow)
    (hspec : ∀ r ∈ l, (aggCond ct r = false ∧ h r = r) ∨
      (aggCond ct r = true ∧ ∃ v, dictAt d r.chromosome r.bin_number = .ok v ∧
        h r = { r with count := v / n })) :
    updateAggGo d n ct l = .ok (l.map h) := by
  induction l with
  | nil => rfl
  | cons r rs ih =>
    have ihr := ih (fun x hx => hspec x (List.mem_cons_of_mem _ hx))
    rcases hspec r (List.mem_cons_self _ _) with ⟨hc, hr⟩ | ⟨hc, v, hv, hr⟩
    · simp only [updateAggGo, hc, Bool.false_eq_true, if_false, ihr, List.map_cons, hr]
    · simp only [updateAggGo, hc, if_true, hv, ihr, List.map_cons, hr]

lemma countP_range_eq (n b : Nat) :
    (List.range n).countP (fun i => decide (i = b)) = if b < n then 1 else 0 := by
  induction n with
  | zero => simp
  | succ m ih =>
    rw [List.range_succ, List.countP_append, ih, List.countP_cons, List.countP_nil]
    by_cases hmb : m = b
    · subst hmb
      simp [Nat.lt_irrefl, Nat.lt_succ_self]
    · have hiff : b < m + 1 ↔ b < m := by omega
      simp [hmb, hiff]

lemma countP_aggRows_seg (ct c0 ch : String) (n : Nat) (b : Nat) (q : Nat → Rat) :
    ((List.range n).map (fun i => aggRow ct c0 i (q i))).countP
      (fun r => decide (r.file_name = "*" ∧ r.chromosome = ch ∧ r.bin_number = b)) =
      if c0 = ch ∧ b < n then 1 else 0 := by
  rw [List.countP_map]
  by_cases hc : c0 = ch
  · subst hc
    have hcongr : (List.range n).countP
        ((fun r => decide (r.file_name = "*" ∧ r.chromosome = c0 ∧ r.bin_number = b)) ∘
          (fun i => aggRow ct c0 i (q i))) =
        (List.range n).countP (fun i => decide (i = b)) := by
      apply List.countP_congr
      intro i _
      simp [aggRow, Function.comp]
    rw [hcongr, countP_range_eq]
    by_cases hb : b < n <;> simp [hb]
  · rw [List.countP_eq_zero.mpr]
    · simp [hc]
    · intro i _
      simp [aggRow, Function.comp, hc]

end Bam

namespace Bam

lemma mem_aggOut {r : NCRow} {ct : String} {chroms : List String} {bins : String → Nat}
    {q : String → Nat → Rat}
    (h : r ∈ chroms.flatMap (fun c =>
      (List.range (bins c)).map (fun i => aggRow ct c i (q c i)))) :
    ∃ ch ∈ chroms, ∃ b, b < bins ch ∧ r = aggRow ct ch b (q ch b) := by
  simp only [List.mem_flatMap, List.mem_map, List.mem_range] at h
  obtain ⟨ch, hch, b, hb, rfl⟩ := h
  exact ⟨ch, hch, b, hb, rfl⟩

lemma countP_aggOut_one (ct : String) (chroms : List String) (bins : String → Nat)
    (q : String → Nat → Rat) (ch : String) (b : Nat)
    (hnd : chroms.Nodup) (hch : ch ∈ chroms) (hb : b < bins ch) :
    (chroms.flatMap (fun c =>
      (List.range (bins c)).map (fun i => aggRow ct c i (q c i)))).countP
      (fun r => decide (r.file_name = "*" ∧ r.chromosome = ch ∧ r.bin_number = b)) = 1 := by
  induction chroms with
  | nil => cases hch
  | cons c0 rest ih =>
    rw [List.nodup_cons] at hnd
    rw [List.flatMap_cons, List.countP_append, countP_aggRows_seg]
    rcases List.mem_cons.mp hch with rfl | hm
    · rw [if_pos ⟨rfl, hb⟩]
      have h0 : (rest.flatMap (fun c =>
          (List.range (bins c)).map (fun i => aggRow ct c i (q c i)))).countP
          (fun r => decide (r.file_name = "*" ∧ r.chromosome = ch ∧ r.bin_number = b)) = 0 := by
        rw [List.countP_eq_zero]
        intro r hr
        obtain ⟨c, hc, i, hi, rfl⟩ := mem_aggOut hr
        have hne : ¬ c = ch := fun he => hnd.1 (he ▸ hc)
        simp [aggRow, hne]
      omega
    · have hc0 : ¬ c0 = ch := fun he => hnd.1 (he ▸ hm)
      rw [if_neg (fun hp => hc0 hp.1), ih hnd.2 hm]

lemma populate_nc_ok (nc : List NCRow) (ct : String) (files : List String) (d : Dict)
    (hd : buildDict nc ct files = .ok d) (hprior : nc.any (aggCond ct) = false) :
    populate_normalized_counts_for_cell_type nc ct files =
      updateAggGo d ((files.length : Nat) : Rat) ct (nc ++ mkAggRows ct d) := by
  simp only [populate_normalized_counts_for_cell_type, hd, hprior, Bool.false_eq_true,
    if_false]

/-- C4: on a table holding the per-file rows of a cell type in canonical
order (every file covers the same chromosomes, each with bins
0..bins(ch)-1 in order), `populate_normalized_counts_for_cell_type`
appends exactly one `"*"` row per (chromosome, bin) of the cell type, and
that row's count is the sum of the files' counts for that bin divided by
the number of files. -/
theorem C4_cell_type_aggregate (ct : String) (chroms : List String) (bins : String → Nat)
    (cnt : String → String → Nat → Rat) (f0 : String) (fs : List String)
    (hfnd : (f0 :: fs).Nodup) (hstar : ¬ "*" ∈ (f0 :: fs)) (hcnd : chroms.Nodup) :
    ∃ out,
      populate_normalized_counts_for_cell_type
        (canonTable ct chroms bins cnt (f0 :: fs)) ct (f0 :: fs) = .ok out ∧
      (∀ ch ∈ chroms, ∀ b, b < bins ch →
        out.countP (fun r =>
          decide (r.file_name = "*" ∧ r.chromosome = ch ∧ r.bin_number = b)) = 1) ∧
      (∀ r ∈ out, r.file_name = "*" →
        r.cell_type = ct ∧ r.chromosome ∈ chroms ∧ r.bin_number < bins r.chromosome ∧
        r.count = (((f0 :: fs).map (fun f2 => cnt f2 r.chromosome r.bin_number)).sum) /
          ((((f0 :: fs).length : Nat) : Rat))) := by
  have hd := buildDict_canon ct chroms bins cnt f0 fs hcnd hfnd
  have hprior := canonTable_no_agg ct chroms bins cnt (f0 :: fs) hstar
  rw [populate_nc_ok _ ct (f0 :: fs) _ hd hprior, mkAggRows_canon]
  have hupd := updateAggGo_map
    (canonDict chroms bins (fun ch b => ((f0 :: fs).map (fun f2 => cnt f2 ch b)).sum))
    ((((f0 :: fs).length : Nat) : Rat)) ct
    (canonTable ct chroms bins cnt (f0 :: fs) ++
      chroms.flatMap (fun c => (List.range (bins c)).map (fun i => aggRow ct c i (-1))))
    (fun r => if aggCond ct r
      then { r with count := ((f0 :: fs).map
        (fun f2 => cnt f2 r.chromosome r.bin_number)).sum / (((f0 :: fs).length : Nat) : Rat) }
      else r)
    (by
      intro r hr
      rcases List.mem_append.mp hr with hrt | hra
      · left
        obtain ⟨f, hf, ch, _, b, _, rfl⟩ := mem_canonTable hrt
        have hcf : aggCond ct (cRow ct ch f b (cnt f ch b)) = false := by
          simp only [aggCond, cRow, decide_eq_false_iff_not, not_and]
          intro he _
          exact hstar (he ▸ hf)
        exact ⟨hcf, by simp [hcf]⟩
      · right
        obtain ⟨ch, hch, b, hb, rfl⟩ := mem_aggOut hra
        have hca : aggCond ct (aggRow ct ch b (-1)) = true := by
          simp [aggCond, aggRow]
        refine ⟨hca, ((f0 :: fs).map (fun f2 => cnt f2 ch b)).sum, ?_, ?_⟩
        · have h1 : (aggRow ct ch b (-1)).chromosome = ch := rfl
          have h2 : (aggRow ct ch b (-1)).bin_number = b := rfl
          rw [h1, h2, dictAt_canon chroms bins _ ch b hcnd hch hb]
        · simp only []
          rw [if_pos hca]
          rfl)
  rw [hupd, List.map_append]
  have hmap_table : (canonTable ct chroms bins cnt (f0 :: fs)).map
      (fun r => if aggCond ct r
        then { r with count := ((f0 :: fs).map
          (fun f2 => cnt f2 r.chromosome r.bin_number)).sum / (((f0 :: fs).length : Nat) : Rat) }
        else r) = canonTable ct chroms bins cnt (f0 :: fs) := by
    have hcongr := List.map_congr_left (l := canonTable ct chroms bins cnt (f0 :: fs))
      (f := fun r => if aggCond ct r
        then { r with count := ((f0 :: fs).map
          (fun f2 => cnt f2 r.chromosome r.bin_number)).sum / (((f0 :: fs).length : Nat) : Rat) }
        else r) (g := id) ?_
    · rw [hcongr, List.map_id]
    · intro r hr
      obtain ⟨f, hf, ch, _, b, _, rfl⟩ := mem_canonTable hr
      have hcf : aggCond ct (cRow ct ch f b (cnt f ch b)) = false := by
        simp only [aggCond, cRow, decide_eq_false_iff_not, not_and]
        intro he _
        exact hstar (he ▸ hf)
      simp [hcf]
  have hmap_agg : (chroms.flatMap (fun c =>
      (List.range (bins c)).map (fun i => aggRow ct c i (-1)))).map
      (fun r => if aggCond ct r
        then { r with count := ((f0 :: fs).map
          (fun f2 => cnt f2 r.chromosome r.bin_number)).sum / (((f0 :: fs).length : Nat) : Rat) }
        else r) =
      chroms.flatMap (fun c => (List.range (bins c)).map (fun i =>
        aggRow ct c i (((f0 :: fs).map (fun f2 => cnt f2 c i)).sum /
          (((f0 :: fs).length : Nat) : Rat)))) := by
    rw [List.map_flatMap]
    have hseg : ∀ c, ((List.range (bins c)).map (fun i => aggRow ct c i (-1))).map
        (fun r => if aggCond ct r
          then { r with count := ((f0 :: fs).map
            (fun f2 => cnt f2 r.chromosome r.bin_number)).sum /
              (((f0 :: fs).length : Nat) : Rat) }
          else r) =
        (List.range (bins c)).map (fun i =>
          aggRow ct c i (((f0 :: fs).map (fun f2 => cnt f2 c i)).sum /
            (((f0 :: fs).length : Nat) : Rat))) := by
      intro c
      rw [List.map_map]
      apply List.map_congr_left
      intro i _
      have hca : aggCond ct (aggRow ct c i (-1)) = true := by
        simp [aggCond, aggRow]
      simp only [Function.comp, hca, if_true]
      rfl
    simp only [hseg]
  rw [hmap_table, hmap_agg]
  refine ⟨_, rfl, ?_, ?_⟩
  · intro ch hch b hb
    rw [List.countP_append]
    have h0 : (canonTable ct chroms bins cnt (f0 :: fs)).countP (fun r =>
        decide (r.file_name = "*" ∧ r.chromosome = ch ∧ r.bin_number = b)) = 0 := by
      rw [List.countP_eq_zero]
      intro r hr
      obtain ⟨f, hf, c, _, i, _, rfl⟩ := mem_canonTable hr
      simp only [cRow, decide_eq_true_eq, not_and]
      intro he
      exact absurd (he ▸ hf) hstar
    rw [h0, countP_aggOut_one ct chroms bins _ ch b hcnd hch hb]
  · intro r hr hstar2
    rcases List.mem_append.mp hr with hrt | hra
    · obtain ⟨f, hf, c, _, i, _, rfl⟩ := mem_canonTable hrt
      exact absurd (hstar2 ▸ hf) hstar
    · obtain ⟨ch, hch, b, hb, rfl⟩ := mem_aggOut hra
      exact ⟨rfl, hch, hb, rfl⟩

end Bam

namespace Bam

/-- Witness for C4: two files over one chromosome with one bin, counts 3
and 5, giving a single aggregate row with count (3 + 5) / 2 = 4. -/
theorem C4_cell_type_aggregate_witness :
    ∃ out,
      populate_normalized_counts_for_cell_type
        (canonTable "t" ["c"] (fun _ => 1)
          (fun f _ _ => if f = "f1" then (3 : Rat) else 5) ["f1", "f2"]) "t" ["f1", "f2"] =
        .ok out ∧
      (∀ ch ∈ ["c"], ∀ b, b < 1 →
        out.countP (fun r =>
          decide (r.file_name = "*" ∧ r.chromosome = ch ∧ r.bin_number = b)) = 1) ∧
      (∀ r ∈ out, r.file_name = "*" →
        r.cell_type = "t" ∧ r.chromosome ∈ ["c"] ∧ r.bin_number < 1 ∧
        r.count = (["f1", "f2"].map (fun f2 => if f2 = "f1" then (3 : Rat) else 5)).sum /
          (((["f1", "f2"] : List String).length : Nat) : Rat)) :=
  C4_cell_type_aggregate "t" ["c"] (fun _ => 1)
    (fun f _ _ => if f = "f1" then (3 : Rat) else 5) "f1" ["f2"]
    (by decide) (by decide) (by decide)

end Bam

namespace Bam

/-! ## normalize_plot_and_summarize -/

/-- The tables of the hierarchical file.  `delete_all_but_bin_counts_table`
drops every table except `bin_counts`; a dropped or never-created table is
`none`. -/
structure FileState where
  binCounts : List RawRow
  normalized : Option (List NCRow)
  summary : Option (List SummaryRow)
  sortedSummary : Option (List SummaryRow)
deriving DecidableEq

/-- The global `file_names_memo` dict. -/
abbrev Memo := List (String × List String)

/-- Python set/OrderedDict iteration: first-occurrence order, no
duplicates. -/
def dedupAcc (seen : List String) : List String → List String
  | [] => []
  | x :: xs => if x ∈ seen then dedupAcc seen xs else x :: dedupAcc (x :: seen) xs

def all_cell_types (counts : List RawRow) : List String :=
  dedupAcc [] (counts.map (·.cell_type))

def all_chromosomes (counts : List RawRow) : List String :=
  dedupAcc [] (counts.map (·.chromosome))

/-- The file names of a cell type computed from the counts table. -/
def computeFileNames (counts : List RawRow) (cell_type : String) : List String :=
  dedupAcc [] ((counts.filter (fun r => decide (r.cell_type = cell_type))).map (·.file_name))

/-- The function `file_names(counts, cell_type)` with the global `file_names_memo`. -/
def file_names (counts : List RawRow) (cell_type : String) (memo : Memo) :
    List String × Memo :=
  match alookup memo cell_type with
  | some v => (v, memo)
  | none => (computeFileNames counts cell_type,
      memo ++ [(cell_type, computeFileNames counts cell_type)])

/-- The function `delete_all_but_bin_counts_table(h5file)`. -/
def delete_all_but_bin_counts_table (s : FileState) : FileState :=
  { binCounts := s.binCounts, normalized := none, summary := none, sortedSummary := none }

/-- The loop `for file_name in current_file_names: populate_percentiles(...)`. -/
def pctLoop (counts : List RawRow) (ct : String) :
    List String → List NCRow → Except Fault (List NCRow)
  | [], nc => .ok nc
  | f :: fs, nc =>
    match populate_percentiles nc counts ct f with
    | .error e => .error e
    | .ok nc2 => pctLoop counts ct fs nc2

/-- The body of the cell-type loop. -/
def processCellType (counts : List RawRow) (nc : List NCRow) (ct : String)
    (names : List String) : Except Fault (List NCRow) :=
  match pctLoop counts ct names nc with
  | .error e => .error e
  | .ok nc2 =>
    match populate_normalized_counts_for_cell_type nc2 ct names with
    | .error e => .error e
    | .ok nc3 => populate_percentiles nc3 counts ct "*"

/-- The cell-type loop, threading the `file_names_memo`. -/
def ctLoop (counts : List RawRow) :
    List String → List NCRow → Memo → Except Fault (List NCRow × Memo)
  | [], nc, m => .ok (nc, m)
  | ct :: cts, nc, m =>
    match processCellType counts nc ct (file_names counts ct m).1 with
    | .error e => .error e
    | .ok nc2 => ctLoop counts cts nc2 (file_names counts ct m).2

/-- The summary loop: `populate_summary` appends rows per chromosome. -/
def summLoop (nc : List NCRow) : List String → Except Fault (List SummaryRow)
  | [] => .ok []
  | ch :: chs =>
    match populate_summary nc ch with
    | .error e => .error e
    | .ok rows =>
      match summLoop nc chs with
      | .error e => .error e
      | .ok rest => .ok (rows ++ rest)

/-- Ascending order on `avg_cell_type_percentile`, the key of the
completely sorted index. -/
def leAvg (a b : SummaryRow) : Prop :=
  a.avg_cell_type_percentile ≤ b.avg_cell_type_percentile

instance : DecidableRel leAvg := fun a b =>
  inferInstanceAs (Decidable (a.avg_cell_type_percentile ≤ b.avg_cell_type_percentile))

instance : IsTotal SummaryRow leAvg := ⟨fun _ _ => le_total _ _⟩

instance : IsTrans SummaryRow leAvg := ⟨fun _ _ _ => le_trans⟩

/-- The function `normalize_plot_and_summarize(counts_file, output_directory, bin_size,
file_to_count)`.  Plotting and index creation are omitted: they write no
table rows.  `sorted_summary` is the summary copied in decreasing
`avg_cell_type_percentile` order (reverse of the ascending index order). -/
def normalize_plot_and_summarize (s : FileState) (memo : Memo) :
    Except Fault (FileState × Memo) :=
  let counts := s.binCounts
  let s0 := delete_all_but_bin_counts_table s
  let cell_types := all_cell_types counts
  let chromosomes := all_chromosomes counts
  match ctLoop counts cell_types [] memo with
  | .error e => .error e
  | .ok (nc, m2) =>
    match summLoop nc chromosomes with
    | .error e => .error e
    | .ok summ =>
      let s1 := { s0 with
                   normalized := some nc,
                   summary := some summ,
                   sortedSummary := some ((List.insertionSort leAvg summ).reverse) }
      .ok (s1, m2)

/-- C9: `normalize_plot_and_summarize` first drops every table other than
`bin_counts`, so its outcome depends only on `bin_counts` (pre-existing
normalized_counts/summary/sorted_summary tables are irrelevant), and on
success the `bin_counts` rows are unchanged — the raw table is only read. -/
theorem C9_bin_counts_frame :
    (∀ (s t : FileState) (memo : Memo), s.binCounts = t.binCounts →
      normalize_plot_and_summarize s memo = normalize_plot_and_summarize t memo) ∧
    (∀ (s : FileState) (memo : Memo) (s2 : FileState) (m2 : Memo),
      normalize_plot_and_summarize s memo = .ok (s2, m2) → s2.binCounts = s.binCounts) := by
  constructor
  · intro s t memo hbc
    simp only [normalize_plot_and_summarize, delete_all_but_bin_counts_table, hbc]
  · intro s memo s2 m2 h
    simp only [normalize_plot_and_summarize, delete_all_but_bin_counts_table] at h
    split at h
    · exact absurd h (by simp)
    · split at h
      · exact absurd h (by simp)
      · injection h with h2
        injection h2 with h3 h4
        rw [← h3]

/-- C8: on success, the output file holds `normalized_counts`, `summary`
and `sorted_summary`, with `sorted_summary` a permutation of the summary
rows sorted by decreasing `avg_cell_type_percentile`. -/
theorem C8_sorted_summary (s : FileState) (memo : Memo) (s2 : FileState) (m2 : Memo)
    (h : normalize_plot_and_summarize s memo = .ok (s2, m2)) :
    ∃ nc summ sorted, s2.normalized = some nc ∧ s2.summary = some summ ∧
      s2.sortedSummary = some sorted ∧ sorted.Perm summ ∧
      sorted.Sorted (fun a b => b.avg_cell_type_percentile ≤ a.avg_cell_type_percentile) := by
  simp only [normalize_plot_and_summarize, delete_all_but_bin_counts_table] at h
  split at h
  · exact absurd h (by simp)
  · split at h
    · exact absurd h (by simp)
    · injection h with h2
      injection h2 with h3 h4
      subst h3
      exact ⟨_, _, _, rfl, rfl, rfl,
        (List.reverse_perm _).trans (List.perm_insertionSort leAvg _),
        by rw [List.Sorted, List.pairwise_reverse]; exact List.sorted_insertionSort leAvg _⟩

end Bam

namespace Bam

/-- Every memoized entry agrees with a fresh scan of the counts table. -/
def memoValid (counts : List RawRow) (m : Memo) : Prop :=
  ∀ ct v, alookup m ct = some v → v = computeFileNames counts ct

lemma memoValid_nil (counts : List RawRow) : memoValid counts [] := by
  intro ct v h
  cases h

lemma alookup_append {β : Type} (xs ys : List (String × β)) (k : String) :
    alookup (xs ++ ys) k =
      match alookup xs k with
      | some v => some v
      | none => alookup ys k := by
  induction xs with
  | nil => rfl
  | cons p rest ih =>
    obtain ⟨k2, v2⟩ := p
    by_cases hk : k = k2
    · simp [alookup, hk]
    · simp only [List.cons_append, alookup, if_neg hk]
      exact ih

lemma file_names_valid (counts : List RawRow) (ct : String) (m : Memo)
    (hm : memoValid counts m) :
    (file_names counts ct m).1 = computeFileNames counts ct ∧
      memoValid counts (file_names counts ct m).2 := by
  rw [file_names]
  cases halt : alookup m ct with
  | some v => exact ⟨hm ct v halt, hm⟩
  | none =>
    refine ⟨rfl, ?_⟩
    intro ct2 v2 h2
    rw [alookup_append] at h2
    cases halt2 : alookup m ct2 with
    | some v3 =>
      rw [halt2] at h2
      exact hm ct2 v2 (halt2.trans (by injection h2 with h3; rw [h3]))
    | none =>
      rw [halt2] at h2
      by_cases hc : ct2 = ct
      · subst hc
        rw [alookup, if_pos rfl] at h2
        injection h2 with h3
        rw [← h3]
      · rw [alookup, if_neg hc] at h2
        cases h2

lemma ctLoop_memo (counts : List RawRow) (cts : List String) :
    ∀ (nc : List NCRow) (mA mB : Memo), memoValid counts mA → memoValid counts mB →
      (match ctLoop counts cts nc mA, ctLoop counts cts nc mB with
       | .ok (a, mA2), .ok (b, mB2) => a = b ∧ memoValid counts mA2 ∧ memoValid counts mB2
       | .error e, .error e2 => e = e2
       | _, _ => False) := by
  induction cts with
  | nil =>
    intro nc mA mB hA hB
    exact ⟨rfl, hA, hB⟩
  | cons ct cts ih =>
    intro nc mA mB hA hB
    obtain ⟨hA1, hA2⟩ := file_names_valid counts ct mA hA
    obtain ⟨hB1, hB2⟩ := file_names_valid counts ct mB hB
    simp only [ctLoop, hA1, hB1]
    cases hpc : processCellType counts nc ct (computeFileNames counts ct) with
    | error e => exact rfl
    | ok nc2 => exact ih nc2 _ _ hA2 hB2

/-- C5: re-running `normalize_plot_and_summarize` on the state produced by
a successful run (same raw `bin_counts` table, same file totals, with the
`file_names_memo` left by the first run) succeeds and produces identical
`normalized_counts`, `summary` and `sorted_summary` tables. -/
theorem C5_rerun_identical (s : FileState) (s1 : FileState) (m1 : Memo)
    (h : normalize_plot_and_summarize s [] = .ok (s1, m1)) :
    ∃ s2 m2, normalize_plot_and_summarize s1 m1 = .ok (s2, m2) ∧
      s2.normalized = s1.normalized ∧ s2.summary = s1.summary ∧
      s2.sortedSummary = s1.sortedSummary := by
  simp only [normalize_plot_and_summarize, delete_all_but_bin_counts_table] at h
  cases h1 : ctLoop s.binCounts (all_cell_types s.binCounts) [] [] with
  | error e =>
    rw [h1] at h
    exact absurd h (by simp)
  | ok p =>
    obtain ⟨nc, m2'⟩ := p
    simp only [h1] at h
    cases h2 : summLoop nc (all_chromosomes s.binCounts) with
    | error e =>
      simp only [h2] at h
      exact absurd h (by simp)
    | ok summ =>
      simp only [h2] at h
      injection h with h3
      injection h3 with h4 h5
      subst h5
      have hbc : s1.binCounts = s.binCounts := by rw [← h4]
      have hval : memoValid s.binCounts m2' := by
        have hv := ctLoop_memo s.binCounts (all_cell_types s.binCounts) [] [] []
          (memoValid_nil _) (memoValid_nil _)
        simp only [h1] at hv
        exact hv.2.1
      have hrel := ctLoop_memo s.binCounts (all_cell_types s.binCounts) [] m2' []
        hval (memoValid_nil _)
      simp only [normalize_plot_and_summarize, delete_all_but_bin_counts_table, hbc]
      cases h6 : ctLoop s.binCounts (all_cell_types s.binCounts) [] m2' with
      | error e =>
        simp only [h6, h1] at hrel
      | ok p2 =>
        obtain ⟨nc2, m3⟩ := p2
        simp only [h6, h1] at hrel
        obtain ⟨hnc, _, _⟩ := hrel
        subst hnc
        simp only [h6, h2]
        refine ⟨_, m3, rfl, ?_, ?_, ?_⟩
        · rw [← h4]
        · rw [← h4]
        · rw [← h4]

end Bam

namespace Bam

/-- Concrete states for the pipeline witnesses. -/
def wEmpty : FileState :=
  { binCounts := [], normalized := none, summary := none, sortedSummary := none }

def wEmptyRun : FileState :=
  { binCounts := [], normalized := some [], summary := some [], sortedSummary := some [] }

def wStale : FileState :=
  { binCounts := w1rows, normalized := some [], summary := some [],
    sortedSummary := some [] }

def wFresh : FileState :=
  { binCounts := w1rows, normalized := none, summary := none, sortedSummary := none }

/-- Witness for C5 at the empty table. -/
theorem C5_rerun_identical_witness :
    ∃ s2 m2, normalize_plot_and_summarize wEmptyRun [] = .ok (s2, m2) ∧
      s2.normalized = wEmptyRun.normalized ∧ s2.summary = wEmptyRun.summary ∧
      s2.sortedSummary = wEmptyRun.sortedSummary :=
  C5_rerun_identical wEmpty wEmptyRun [] (by rfl)

/-- Witness for C8 at the empty table. -/
theorem C8_sorted_summary_witness :
    ∃ nc summ sorted, wEmptyRun.normalized = some nc ∧ wEmptyRun.summary = some summ ∧
      wEmptyRun.sortedSummary = some sorted ∧ sorted.Perm summ ∧
      sorted.Sorted (fun a b => b.avg_cell_type_percentile ≤ a.avg_cell_type_percentile) :=
  C8_sorted_summary wEmpty [] wEmptyRun [] (by rfl)

/-- Witness for C9: a stale derived state and a fresh state with the same
raw table give the same outcome, and a successful run leaves `bin_counts`
unchanged. -/
theorem C9_bin_counts_frame_witness :
    normalize_plot_and_summarize wFresh [] = normalize_plot_and_summarize wStale [] ∧
    wEmptyRun.binCounts = wEmpty.binCounts :=
  ⟨C9_bin_counts_frame.1 wFresh wStale [] rfl,
   C9_bin_counts_frame.2 wEmpty [] wEmptyRun [] (by rfl)⟩

end Bam
